import Mathlib

/-!
Verification of `dev/integrate_html_files.py`.

The script post-processes a directory of generated HTML documentation: it
extracts title/body/styles/scripts from each "standalone" page by regular
expressions, extracts three template regions from `docs/index.html`, and
rewrites each standalone page wrapped in the shared template.

The embedding below models file contents as `List Char` and the `docs`
directory as an association list from file names to `Option (List Char)`
(`none` models a file whose read raises an exception).  Each Python regex
used by the script is deterministic (greedy `[^>]*` runs followed by a
forced `>`, lazy `.*?` up to the first close tag), so each one is embedded
as a recursive scanning function with exactly the leftmost-match /
non-overlapping-`re.sub`/`re.findall` semantics of the source.
-/

/-- Convert a string literal to the character-list representation. -/
def chars (s : String) : List Char := s.toList

/-- The double-quote character. -/
def dquote : Char := Char.ofNat 34

/-- The single-quote character. -/
def squote : Char := Char.ofNat 39

/-- Whitespace as stripped by Python's `str.strip()`. -/
def pyIsSpace (c : Char) : Bool :=
  c = ' ' || c = '\t' || c = '\n' || c = '\x0d' || c = '\x0b' || c = '\x0c'

/-- Python `str.strip()`: drop whitespace from both ends. -/
def pyStrip (cs : List Char) : List Char :=
  ((cs.dropWhile pyIsSpace).reverse.dropWhile pyIsSpace).reverse

/-- Python `str.lower()` (ASCII case folding suffices for the script's data). -/
def lowerL (cs : List Char) : List Char := cs.map Char.toLower

/-- Case-insensitive character comparison, as used by `re.IGNORECASE`. -/
def ciEqChar (p t : Char) : Bool := p.toLower == t.toLower

/-- `ciIsPrefixL pat t`: `pat` matches case-insensitively at the head of `t`. -/
def ciIsPrefixL : List Char → List Char → Bool
  | [], _ => true
  | _ :: _, [] => false
  | p :: ps, t :: ts => ciEqChar p t && ciIsPrefixL ps ts

/-- Case-insensitive equality of two character lists of equal length. -/
def ciEqL : List Char → List Char → Bool
  | [], [] => true
  | p :: ps, t :: ts => ciEqChar p t && ciEqL ps ts
  | _, _ => false

/-- `ciOccurs pat t`: `pat` matches case-insensitively somewhere inside `t`. -/
def ciOccurs (pat : List Char) : List Char → Bool
  | [] => ciIsPrefixL pat []
  | c :: cs => ciIsPrefixL pat (c :: cs) || ciOccurs pat cs

/-- Case-sensitive prefix test. -/
def isPrefixL : List Char → List Char → Bool
  | [], _ => true
  | _ :: _, [] => false
  | p :: ps, t :: ts => p == t && isPrefixL ps ts

/-- Case-sensitive substring test (Python's `in` operator on `str`). -/
def containsSub (pat : List Char) : List Char → Bool
  | [] => isPrefixL pat []
  | c :: cs => isPrefixL pat (c :: cs) || containsSub pat cs

/-- First index at which `pat` occurs (Python `str.find`, `-1` mapped to `none`). -/
def findIdx (pat : List Char) : List Char → Option Nat
  | [] => if isPrefixL pat [] then some 0 else none
  | c :: cs =>
    if isPrefixL pat (c :: cs) then some 0
    else (findIdx pat cs).map (· + 1)

/-- The regex fragment `[^>]*>`: greedily consume non-`>` characters, then `>`.
Returns `(attrs, rest)` where `attrs` is the consumed run (without the `>`)
and `rest` is everything after the `>`; fails when no `>` remains. -/
def consumeAttrs2 : List Char → Option (List Char × List Char)
  | [] => none
  | c :: cs =>
    if c = '>' then some ([], cs)
    else (consumeAttrs2 cs).map (fun p => (c :: p.1, p.2))

/-- The lazy fragment `(.*?)pat` with `re.IGNORECASE | re.DOTALL`: split the
input at the first case-insensitive occurrence of `pat`, returning
`(inner, matchedText, rest)` where `matchedText` is the actual (possibly
differently-cased) text that matched `pat`. -/
def splitAtCi2 (pat : List Char) : List Char → Option (List Char × List Char × List Char)
  | [] => if ciIsPrefixL pat [] then some ([], [], []) else none
  | c :: cs =>
    if ciIsPrefixL pat (c :: cs) then
      some ([], (c :: cs).take pat.length, (c :: cs).drop pat.length)
    else
      (splitAtCi2 pat cs).map (fun p => (c :: p.1, p.2.1, p.2.2))

/-- One attempted match of `ot[^>]*>(.*?)ct` (case-insensitive, dot-all) at the
head of the input, as in `re.search`/`re.findall` for the `<title>`, `<body>`,
`<style>` and `<script>` patterns of `extract_html_content`.  Returns
`(fullMatch, innerGroup, rest)`. -/
def matchTagAt (ot ct : List Char) (cs : List Char) : Option (List Char × List Char × List Char) :=
  if ciIsPrefixL ot cs then
    match consumeAttrs2 (cs.drop ot.length) with
    | some (attrs, afterGt) =>
      match splitAtCi2 ct afterGt with
      | some (inner, closeTxt, rest) =>
        some (cs.take ot.length ++ attrs ++ '>' :: (inner ++ closeTxt), inner, rest)
      | none => none
    | none => none
  else none

/-- `re.search` for a tag pattern: the inner group of the leftmost match. -/
def searchTagInner (ot ct : List Char) : List Char → Option (List Char)
  | [] => (matchTagAt ot ct []).map (fun m => m.2.1)
  | c :: cs =>
    match matchTagAt ot ct (c :: cs) with
    | some m => some m.2.1
    | none => searchTagInner ot ct cs

/-- `re.findall` for a tag pattern, fuelled so that the kernel can evaluate
it (the fuel only needs to dominate the input length; each step consumes at
least one character).  All non-overlapping matches, leftmost first, each as
`(fullMatch, innerGroup)`. -/
def findAllTagGo (ot ct : List Char) : Nat → List Char → List (List Char × List Char)
  | _, [] => []
  | 0, _ :: _ => []
  | fuel + 1, c :: cs =>
    match matchTagAt ot ct (c :: cs) with
    | some m => (m.1, m.2.1) :: findAllTagGo ot ct fuel m.2.2
    | none => findAllTagGo ot ct fuel cs

/-- `re.findall` for a tag pattern: all non-overlapping matches, leftmost
first, each as `(fullMatch, innerGroup)`. -/
def findAllTag (ot ct : List Char) (cs : List Char) : List (List Char × List Char) :=
  findAllTagGo ot ct cs.length cs

/-- Keyword allowlist used to filter `<style>` blocks. -/
def styleKeywords : List (List Char) :=
  [chars "badge", chars "mermaid", chars "highlight", chars "code",
   chars "pre", chars "table", chars "img"]

/-- A style block is kept iff its lowercased text contains one of the keywords. -/
def keepStyle (s : List Char) : Bool :=
  styleKeywords.any (fun kw => containsSub kw (lowerL s))

/-- The `useful_styles` accumulation loop of `extract_html_content`. -/
def usefulStyles : List (List Char) → List (List Char)
  | [] => []
  | s :: rest => if keepStyle s then pyStrip s :: usefulStyles rest else usefulStyles rest

/-- Python `'\n'.join`. -/
def joinNL : List (List Char) → List Char
  | [] => []
  | [x] => x
  | x :: y :: xs => x ++ '\n' :: joinNL (y :: xs)

/-- One position of the attribute text matching `type=["']module["']`
(case-insensitive; opening and closing quote may differ, as in the regex). -/
def moduleAttrAt (cs : List Char) : Bool :=
  ciIsPrefixL (chars "type=") cs &&
    (match cs.drop 5 with
     | q :: rest1 =>
       (q = dquote || q = squote) && ciIsPrefixL (chars "module") rest1 &&
         (match rest1.drop 6 with
          | q2 :: _ => q2 = dquote || q2 = squote
          | [] => false)
     | [] => false)

/-- Does the attribute run contain `type=["']module["']` anywhere? -/
def hasModuleAttr : List Char → Bool
  | [] => false
  | c :: cs => moduleAttrAt (c :: cs) || hasModuleAttr cs

/-- One attempted match of the module-script pattern
`<script[^>]*type=["']module["'][^>]*>.*?</script>` at the head of the input.
The whole tag-open must sit before the first `>` after `<script`, and the
lazy `.*?` ends at the first case-insensitive `</script>`.  Returns
`(fullMatch, rest)`. -/
def matchModuleAt (cs : List Char) : Option (List Char × List Char) :=
  if ciIsPrefixL (chars "<script") cs then
    match consumeAttrs2 (cs.drop 7) with
    | some (attrs, afterGt) =>
      if hasModuleAttr attrs then
        match splitAtCi2 (chars "</script>") afterGt with
        | some (inner, closeTxt, rest) =>
          some (cs.take 7 ++ attrs ++ '>' :: (inner ++ closeTxt), rest)
        | none => none
      else none
    | none => none
  else none

/-- `re.findall` for the module-script pattern (fuelled as `findAllTagGo`). -/
def findAllModuleGo : Nat → List Char → List (List Char)
  | _, [] => []
  | 0, _ :: _ => []
  | fuel + 1, c :: cs =>
    match matchModuleAt (c :: cs) with
    | some m => m.1 :: findAllModuleGo fuel m.2
    | none => findAllModuleGo fuel cs

/-- `re.findall` for the module-script pattern. -/
def findAllModule (cs : List Char) : List (List Char) :=
  findAllModuleGo cs.length cs

/-- After the `<` (and optional `/`) of `</?name[^>]*>`: the tag name
(case-insensitive), then `[^>]*>`.  Returns the rest after the tag. -/
def matchStripBodyAt (name : List Char) (r : List Char) : Option (List Char) :=
  if ciIsPrefixL name r then (consumeAttrs2 (r.drop name.length)).map Prod.snd else none

/-- One attempted match of `</?name[^>]*>` (case-insensitive) at the head of
the input; on success returns the rest of the input after the tag.  Used by
the `re.sub(r'</?html[^>]*>', '', ...)` / `...body...` cleanup calls.
(When the `/` is present the name must follow it; the empty alternative of
`/?` can never succeed there because the name never starts with `/`.) -/
def matchStripAt (name : List Char) (cs : List Char) : Option (List Char) :=
  match cs with
  | c :: rest =>
    if c = '<' then
      match rest with
      | c2 :: rest2 =>
        if c2 = '/' then matchStripBodyAt name rest2 else matchStripBodyAt name rest
      | [] => matchStripBodyAt name []
    else none
  | [] => none

/-- `re.sub(r'</?name[^>]*>', '', text, flags=re.IGNORECASE)` (fuelled as
`findAllTagGo`): delete every non-overlapping leftmost match. -/
def pySubTagGo (name : List Char) : Nat → List Char → List Char
  | _, [] => []
  | 0, rest => rest
  | fuel + 1, c :: cs =>
    match matchStripAt name (c :: cs) with
    | some r => pySubTagGo name fuel r
    | none => c :: pySubTagGo name fuel cs

/-- `re.sub(r'</?name[^>]*>', '', text, flags=re.IGNORECASE)`: delete every
non-overlapping leftmost match. -/
def pySubTag (name : List Char) (cs : List Char) : List Char :=
  pySubTagGo name cs.length cs

/-- The `([^"]+)"` tail of the sidebar-anchor pattern: collect at least one
non-quote character up to a closing `"`.  Returns `(fragment, rest)`;
emptiness of the fragment is checked by the caller. -/
def fragRest : List Char → Option (List Char × List Char)
  | [] => none
  | c :: cs =>
    if c = dquote then some ([], cs)
    else (fragRest cs).map (fun p => (c :: p.1, p.2))

/-- One attempted match of `href="#([^"]+)"` (case-sensitive) at the head of
the input, as in the `re.sub` of `create_integrated_page`. -/
def matchHrefAt (cs : List Char) : Option (List Char × List Char) :=
  if isPrefixL (chars "href=\"#") cs then
    match fragRest (cs.drop 7) with
    | some (frag, rest) => if frag = [] then none else some (frag, rest)
    | none => none
  else none

/-- `re.sub(r'href="#([^"]+)"', r'href="index.html#\1"', sidebar)` (fuelled
as `findAllTagGo`): replace every non-overlapping leftmost match. -/
def rewriteHrefGo : Nat → List Char → List Char
  | _, [] => []
  | 0, rest => rest
  | fuel + 1, c :: cs =>
    match matchHrefAt (c :: cs) with
    | some m => chars "href=\"index.html#" ++ m.1 ++ dquote :: rewriteHrefGo fuel m.2
    | none => c :: rewriteHrefGo fuel cs

/-- `re.sub(r'href="#([^"]+)"', r'href="index.html#\1"', sidebar)`: replace
every non-overlapping leftmost match. -/
def rewriteHref (cs : List Char) : List Char :=
  rewriteHrefGo cs.length cs

/-- The record returned by `extract_html_content` on success. -/
structure ExtractedContent where
  title : List Char
  content : List Char
  styles : List Char
  scripts : List Char
deriving DecidableEq

/-- The body of `extract_html_content` applied to the text of a readable
file (the `try:` block of the source; pure regex work cannot raise). -/
def extractPure (content : List Char) : ExtractedContent :=
  let title :=
    match searchTagInner (chars "<title") (chars "</title>") content with
    | some t => pyStrip t
    | none => chars "Documentation"
  let body_content :=
    match searchTagInner (chars "<body") (chars "</body>") content with
    | some b => pyStrip b
    | none =>
      match findIdx (chars "</head>") content with
      | some head_end =>
        pySubTag (chars "body") (pySubTag (chars "html") (pyStrip (content.drop (head_end + 7))))
      | none => content
  let style_matches := (findAllTag (chars "<style") (chars "</style>") content).map (fun m => m.2)
  let useful := usefulStyles style_matches
  let styles := if useful = [] then [] else joinNL useful
  let script_matches := (findAllTag (chars "<script") (chars "</script>") content).map (fun m => m.1)
  let scripts0 := if script_matches = [] then [] else joinNL script_matches
  let import_script_matches := findAllModule content
  let scripts :=
    if import_script_matches = [] then scripts0
    else joinNL import_script_matches ++ '\n' :: scripts0
  ⟨title, body_content, styles, scripts⟩

/-- `extract_html_content`: `none` input models a file whose read raises, in
which case the `except:` handler returns `None`. -/
def extract_html_content : Option (List Char) → Option ExtractedContent
  | none => none
  | some content => some (extractPure content)

/-- Python `str.find(sub, start)` on the content, including the `-1` failure
sentinel and negative-start clamping. -/
def pyFind (cs pat : List Char) (start : Int) : Int :=
  let n : Int := cs.length
  let s : Int := if start < 0 then max 0 (n + start) else start
  if s > n then -1
  else
    match findIdx pat (cs.drop s.toNat) with
    | some k => s + (k : Int)
    | none => -1

/-- Python slice `cs[a:b]` with clamping of out-of-range bounds. -/
def pySlice (cs : List Char) (a b : Int) : List Char :=
  let n : Int := cs.length
  let a' : Int := if a < 0 then max 0 (n + a) else min a n
  let b' : Int := if b < 0 then max 0 (n + b) else min b n
  if a' < b' then (cs.drop a'.toNat).take (b' - a').toNat else []

/-- The record returned by `generate_pdoc_template` on success. -/
structure TemplateRegions where
  before_content : List Char
  sidebar : List Char
  footer : List Char
deriving DecidableEq

/-- `generate_pdoc_template`: `none` input models a missing
`docs/index.html` (the `os.path.exists` guard); otherwise the anchors are
located with `str.find` and the regions sliced out.  Note the faithful
`+ 6` applied to the `-1` sentinel before the `sidebar_end == -1` check. -/
def generate_pdoc_template (idx : Option (List Char)) : Option TemplateRegions :=
  match idx with
  | none => none
  | some content =>
    let content_start := pyFind content (chars "<article id=\"content\">") 0
    if content_start = -1 then none
    else
      let before_content := pySlice content 0 content_start
      let sidebar_start := pyFind content (chars "<nav id=\"sidebar\">") 0
      let sidebar_end := pyFind content (chars "</nav>") sidebar_start + 6
      if sidebar_start = -1 ∨ sidebar_end = -1 then none
      else
        let sidebar := pySlice content sidebar_start sidebar_end
        let footer_start := pyFind content (chars "<footer id=\"footer\">") 0
        let footer_end := pyFind content (chars "</html>") 0
        if footer_start = -1 ∨ footer_end = -1 then none
        else
          let footer := pySlice content footer_start footer_end
          some ⟨before_content, sidebar, footer⟩
/-- Fixed f-string segment of `create_integrated_page` (tmplA). -/
def tmplA : List Char :=
  "<!doctype html>\n<html lang=\"en\">\n<head>\n  <meta charset=\"utf-8\">\n  <meta name=\"viewport\" content=\"width=device-width, initial-scale=1, minimum-scale=1\" />\n  <meta name=\"generator\" content=\"pdoc 0.11.6\" />\n  <title>".toList

/-- Fixed f-string segment of `create_integrated_page` (tmplB). -/
def tmplB : List Char :=
  "</title>\n  <meta name=\"description\" content=\"".toList

/-- Chunk 1 of the fixed f-string segment `tmplC` (split only so that the kernel never has to evaluate over a long list). -/
def tmplCp1 : List Char :=
  "\" />\n  <link rel=\"preload stylesheet\" as=\"style\" href=\"https://cdnjs.cloudflare.com/ajax/libs/10up-sanitize.css/11.0.1/sanitize.min.css\" integrity=\"sha256-PK9q560IAAa6WVRRh76LtCaI8pjTJ2z11v0miyNNjrs=\" crossorigin>\n  <link rel=\"preload stylesheet\" as=\"style\" href=\"https://cdnjs.cloudflare.com/ajax/libs/10up-sanitize.css/11.0.1/typography.min.css\" integrity=\"sha256-7l/o7C8jubJiy74VsKTidCy1yBkRtiUGbVkYBylBqUg=\" crossorigin>\n  <link rel=\"stylesheet preload\" as=\"style\" href=\"https://cdnjs.cloudflare.com/ajax/libs/highlight.js/10.1.1/styles/github.min.css\" crossorigin>\n  \n  <!-- Pdoc Styles -->\n  <s".toList

/-- Chunk 2 of the fixed f-string segment `tmplC` (split only so that the kernel never has to evaluate over a long list). -/
def tmplCp2 : List Char :=
  "tyle>:root\x7b--highlight-color:#fe9\x7d.flex\x7bdisplay:flex !important\x7dbody\x7bline-height:1.5em\x7d#content\x7bpadding:20px\x7d#sidebar\x7bpadding:30px;overflow:hidden\x7d#sidebar > *:last-child\x7bmargin-bottom:2cm\x7d.http-server-breadcrumbs\x7bfont-size:130%;margin:0 0 15px 0\x7d#footer\x7bfont-size:.75em;padding:5px 30px;border-top:1px solid #ddd;text-align:right\x7d#footer p\x7bmargin:0 0 0 1em;display:inline-block\x7d#footer p:last-child\x7bmargin-right:30px\x7dh1,h2,h3,h4,h5\x7bfont-weight:300\x7dh1\x7bfont-size:2.5em;line-height:1.1em\x7dh2\x7bfont-size:1.75em;margin:1em 0 .50em 0\x7dh3\x7bfont-size:1.4em;margin:25px 0 10px 0\x7dh4\x7bmargin:0;font-size:105%\x7dh1:tar".toList

/-- Chunk 3 of the fixed f-string segment `tmplC` (split only so that the kernel never has to evaluate over a long list). -/
def tmplCp3 : List Char :=
  "get,h2:target,h3:target,h4:target,h5:target,h6:target\x7bbackground:var(--highlight-color);padding:.2em 0\x7da\x7bcolor:#058;text-decoration:none;transition:color .3s ease-in-out\x7da:hover\x7bcolor:#e82\x7d.title code\x7bfont-weight:bold\x7dh2[id^=\"header-\"]\x7bmargin-top:2em\x7d.ident\x7bcolor:#900\x7dpre code\x7bbackground:#f8f8f8;font-size:.8em;line-height:1.4em\x7dcode\x7bbackground:#f2f2f1;padding:1px 4px;overflow-wrap:break-word\x7dh1 code\x7bbackground:transparent\x7dpre\x7bbackground:#f8f8f8;border:0;border-top:1px solid #ccc;border-bottom:1px solid #ccc;margin:1em 0;padding:1ex\x7d#http-server-module-list\x7bdisplay:flex;flex-flow:column\x7d#http-s".toList

/-- Chunk 4 of the fixed f-string segment `tmplC` (split only so that the kernel never has to evaluate over a long list). -/
def tmplCp4 : List Char :=
  "erver-module-list div\x7bdisplay:flex\x7d#http-server-module-list dt\x7bmin-width:10%\x7d#http-server-module-list p\x7bmargin-top:0\x7d.toc ul,#index\x7blist-style-type:none;margin:0;padding:0\x7d#index code\x7bbackground:transparent\x7d#index h3\x7bborder-bottom:1px solid #ddd\x7d#index ul\x7bpadding:0\x7d#index h4\x7bmargin-top:.6em;font-weight:bold\x7d@media (min-width:200ex)\x7b#index .two-column\x7bcolumn-count:2\x7d\x7d@media (min-width:300ex)\x7b#index .two-column\x7bcolumn-count:3\x7d\x7ddl\x7bmargin-bottom:2em\x7ddl dl:last-child\x7bmargin-bottom:4em\x7ddd\x7bmargin:0 0 1em 3em\x7d#header-classes + dl > dd\x7bmargin-bottom:3em\x7ddd dd\x7bmargin-left:2em\x7ddd p\x7bmargin:10px 0\x7d.name\x7bba".toList

/-- Chunk 5 of the fixed f-string segment `tmplC` (split only so that the kernel never has to evaluate over a long list). -/
def tmplCp5 : List Char :=
  "ckground:#eee;font-weight:bold;font-size:.85em;padding:5px 10px;display:inline-block;min-width:40%\x7d.name:hover\x7bbackground:#e0e0e0\x7ddt:target .name\x7bbackground:var(--highlight-color)\x7d.name > span:first-child\x7bwhite-space:nowrap\x7d.name.class > span:nth-child(2)\x7bmargin-left:.4em\x7d.inherited\x7bcolor:#999;border-left:5px solid #eee;padding-left:1em\x7d.inheritance em\x7bfont-style:normal;font-weight:bold\x7d.desc h2\x7bfont-weight:400;font-size:1.25em\x7d.desc h3\x7bfont-size:1em\x7d.desc dt code\x7bbackground:inherit\x7d.source summary,.git-link-div\x7bcolor:#666;text-align:right;font-weight:400;font-size:.8em;text-transform:uppercas".toList

/-- Chunk 6 of the fixed f-string segment `tmplC` (split only so that the kernel never has to evaluate over a long list). -/
def tmplCp6 : List Char :=
  "e\x7d.source summary > *\x7bwhite-space:nowrap;cursor:pointer\x7d.git-link\x7bcolor:inherit;margin-left:1em\x7d.source pre\x7bmax-height:500px;overflow:auto;margin:0\x7d.source pre code\x7bfont-size:12px;overflow:visible\x7d.hlist\x7blist-style:none\x7d.hlist li\x7bdisplay:inline\x7d.hlist li:after\x7bcontent:\x27,\\2002\x27\x7d.hlist li:last-child:after\x7bcontent:none\x7d.hlist .hlist\x7bdisplay:inline;padding-left:1em\x7dimg\x7bmax-width:100%\x7dtd\x7bpadding:0 .5em\x7d.admonition\x7bpadding:.1em .5em;margin-bottom:1em\x7d.admonition-title\x7bfont-weight:bold\x7d.admonition.note,.admonition.info,.admonition.important\x7bbackground:#aef\x7d.admonition.todo,.admonition.versionadded,.".toList

/-- Chunk 7 of the fixed f-string segment `tmplC` (split only so that the kernel never has to evaluate over a long list). -/
def tmplCp7 : List Char :=
  "admonition.tip,.admonition.hint\x7bbackground:#dfd\x7d.admonition.warning,.admonition.versionchanged,.admonition.deprecated\x7bbackground:#fd4\x7d.admonition.error,.admonition.danger,.admonition.caution\x7bbackground:lightpink\x7d</style>\n  <style media=\"screen and (min-width: 700px)\">@media screen and (min-width:700px)\x7b#sidebar\x7bwidth:30%;height:100vh;overflow:auto;position:sticky;top:0\x7d#content\x7bwidth:70%;padding:3em 4em;border-left:1px solid #ddd\x7dpre code\x7bfont-size:1em\x7d.item .name\x7bfont-size:1em\x7dmain\x7bdisplay:flex;flex-direction:row-reverse;justify-content:flex-end\x7d.toc ul ul,#index ul\x7bpadding-left:1.5em\x7d.toc > ".toList

/-- Chunk 8 of the fixed f-string segment `tmplC` (split only so that the kernel never has to evaluate over a long list). -/
def tmplCp8 : List Char :=
  "ul > li\x7bmargin-top:.5em\x7d\x7d</style>\n  <style media=\"print\">@media print\x7b#sidebar h1\x7bpage-break-before:always\x7d.source\x7bdisplay:none\x7d\x7d@media print\x7b*\x7bbackground:transparent !important;color:#000 !important;box-shadow:none !important;text-shadow:none !important\x7da[href]:after\x7bcontent:\" (\" attr(href) \")\";font-size:90%\x7da[href][title]:after\x7bcontent:none\x7dabbr[title]:after\x7bcontent:\" (\" attr(title) \")\"\x7d .ir a:after,a[href^=\"javascript:\"]:after,a[href^=\"#\"]:after\x7bcontent:\"\"\x7dpre,blockquote\x7bborder:1px solid #999;page-break-inside:avoid\x7dthead\x7bdisplay:table-header-group\x7dtr,img\x7bpage-break-inside:avoid\x7dimg\x7bmax-wid".toList

/-- Chunk 9 of the fixed f-string segment `tmplC` (split only so that the kernel never has to evaluate over a long list). -/
def tmplCp9 : List Char :=
  "th:100% !important\x7d@page\x7bmargin:0.5cm\x7dp,h2,h3\x7borphans:3;widows:3\x7dh1,h2,h3,h4,h5,h6\x7bpage-break-after:avoid\x7d\x7d</style>\n\n  <!-- Additional styles for custom content -->\n  <style>\n    .badges img \x7b\n      margin-right: 0.5rem;\n      margin-bottom: 0.25rem;\n    \x7d\n    .mermaid \x7b\n      text-align: center;\n      margin: 1rem 0;\n    \x7d\n    #section-intro .badges \x7b\n      margin-bottom: 1rem;\n    \x7d\n    /* Custom styles from original HTML */\n    ".toList

/-- Fixed f-string segment of `create_integrated_page` (tmplC). -/
def tmplC : List Char :=
  tmplCp1 ++ tmplCp2 ++ tmplCp3 ++ tmplCp4 ++ tmplCp5 ++ tmplCp6 ++ tmplCp7 ++ tmplCp8 ++ tmplCp9

/-- Fixed f-string segment of `create_integrated_page` (tmplD). -/
def tmplD : List Char :=
  "\n  </style>\n  <script defer src=\"https://cdnjs.cloudflare.com/ajax/libs/highlight.js/10.1.1/highlight.min.js\" integrity=\"sha256-Uv3H6lx7dJmRfRvH8TH6kJD1TSK1aFcwgx+mdg3epi8=\" crossorigin></script>\n  <script>window.addEventListener(\x27DOMContentLoaded\x27, () => hljs.initHighlighting())</script>\n  <link rel=\"shortcut icon\" type=\"image/x-icon\" href=\"adaptyv_logo.png?\">\n</head>\n<body>\n<main>\n<article id=\"content\">\n<section id=\"section-intro\">\n".toList

/-- Fixed f-string segment of `create_integrated_page` (tmplE). -/
def tmplE : List Char :=
  "\n</section>\n</article>\n\n".toList

/-- Fixed f-string segment of `create_integrated_page` (tmplF). -/
def tmplF : List Char :=
  "\n</main>\n\n".toList

/-- Fixed f-string segment of `create_integrated_page` (tmplG). -/
def tmplG : List Char :=
  "\n\n".toList

/-- Fixed f-string segment of `create_integrated_page` (tmplH). -/
def tmplH : List Char :=
  "\n".toList

/-- `create_integrated_page` without its file write: the composed document.
The f-string interpolates, in order: title, title, styles, content, the
rewritten sidebar, the template footer and the scripts; `before_content`
is unused by the source. -/
def create_integrated_page (html_data : ExtractedContent) (template_data : TemplateRegions) :
    List Char :=
  let sidebar := rewriteHref template_data.sidebar
  tmplA ++ html_data.title ++ tmplB ++ html_data.title ++ tmplC ++ html_data.styles ++
    tmplD ++ html_data.content ++ tmplE ++ sidebar ++ tmplF ++ template_data.footer ++
    tmplG ++ html_data.scripts ++ tmplH

/-- The `docs` directory: file names with contents; `none` content models a
file whose read raises. -/
abbrev Fs := List (String × Option (List Char))

/-- Look a file up: `none` = no such file; `some none` = read raises. -/
def readFs : Fs → String → Option (Option (List Char))
  | [], _ => none
  | (m, oc) :: rest, n => if m = n then some oc else readFs rest n

/-- `open(path, 'w')`: overwrite (or create) a file. -/
def writeFs : Fs → String → List Char → Fs
  | [], n, c => [(n, some c)]
  | (m, oc) :: rest, n, c =>
    if m = n then (m, some c) :: rest else (m, oc) :: writeFs rest n c

/-- The pdoc-structure marker tested by the driver. -/
def marker : List Char := chars "<nav id=\"sidebar\">"

/-- Case-sensitive suffix test. -/
def isSuffixL (pat cs : List Char) : Bool := isPrefixL pat.reverse cs.reverse

/-- Membership test for `docs_dir.glob('*.html')`: any name ending in
`.html` (pathlib's glob also matches dot-named files). -/
def isHtmlName (n : String) : Bool :=
  isSuffixL (chars ".html") n.toList

/-- The per-file candidate test of the driver's scan loop: a `*.html` file
other than `index.html`, readable, whose content lacks the sidebar marker. -/
def isStandaloneEntry : String × Option (List Char) → Bool
  | (n, oc) =>
    isHtmlName n && n != "index.html" &&
      (match oc with
       | some content => !containsSub marker content
       | none => false)

/-- The driver's scan: names of standalone files in directory order
(unreadable files produce a warning and are skipped). -/
def scanCandidates (fs : Fs) : List String :=
  (fs.filter isStandaloneEntry).map Prod.fst

/-- The driver's processing loop over the standalone file names: re-check
existence, extract, and on success compose and overwrite; extraction
failure skips the file and continues. -/
def processFiles (template_data : TemplateRegions) : List String → Fs → Fs
  | [], fs => fs
  | n :: rest, fs =>
    processFiles template_data rest
      (match readFs fs n with
       | none => fs
       | some oc =>
         match extract_html_content oc with
         | none => fs
         | some html_data => writeFs fs n (create_integrated_page html_data template_data))

/-- The driver `main` (renamed `mainDriver`: Lean reserves `main`), as a
function from the `docs` directory state to the
directory state after the run.  `none` models the one uncaught exception
path: `docs/index.html` exists but its read raises inside
`generate_pdoc_template`.  Early returns (missing index, missing anchors,
no candidates) leave the directory unchanged. -/
def mainDriver (fs : Fs) : Option Fs :=
  match readFs fs "index.html" with
  | some none => none
  | some (some content) =>
    match generate_pdoc_template (some content) with
    | none => some fs
    | some template_data =>
      let standalone_files := scanCandidates fs
      if standalone_files = [] then some fs
      else some (processFiles template_data standalone_files fs)
  | none =>
    match generate_pdoc_template none with
    | none => some fs
    | some template_data =>
      let standalone_files := scanCandidates fs
      if standalone_files = [] then some fs
      else some (processFiles template_data standalone_files fs)

/-- Declarative form of "the content has a case-insensitive
`ot[^>]*>(.*?)ct` match somewhere": some split of the content into a prefix,
a case-insensitive image of the open tag, a `>`-free attribute run, a `>`,
an inner region, a case-insensitive image of the close tag and a tail. -/
def CiTagMatch (ot ct c : List Char) : Prop :=
  ∃ a o attrs inner cl b,
    c = a ++ o ++ attrs ++ '>' :: (inner ++ cl ++ b) ∧
      ciEqL ot o = true ∧ ciEqL ct cl = true ∧ ∀ x ∈ attrs, x ≠ '>'

/-- A degenerate index page: all anchors present except that no `</nav>`
follows the sidebar tag. -/
def idxDeg : List Char :=
  chars "<article id=\"content\"><nav id=\"sidebar\"><footer id=\"footer\">F</html>"

/-- A small standalone page. -/
def guideDeg : List Char := chars "<title>G</title><body>B</body>"

/-- A directory holding the degenerate index and one standalone page. -/
def fsDeg : Fs := [("index.html", some idxDeg), ("guide.html", some guideDeg)]

/-- A well-formed minimal index page (proper `</nav>` close). -/
def idxGood : List Char :=
  chars "<html><head></head><body><main><article id=\"content\">x</article><nav id=\"sidebar\">N</nav></main><footer id=\"footer\">f</footer></body></html>"

/-- A small standalone page for the idempotence witness. -/
def guideGood : List Char := chars "<title>T</title><body>B</body>"

/-- A directory holding the well-formed index and one standalone page. -/
def fsGood : Fs := [("index.html", some idxGood), ("guide.html", some guideGood)]

/-- The end-to-end scenario's index page: content article, a sidebar
`<nav id="sidebar">...</nav>` block, and a footer followed by `</html>`. -/
def idxC2 : List Char :=
  chars "<html><head></head><body><main><article id=\"content\"><p>c</p></article><nav id=\"sidebar\"><ul><li>Nav</li></ul></nav></main><footer id=\"footer\">foo</footer></body></html>"

/-- The end-to-end scenario's `guide.html`: a title, a body `Hello`, and no
sidebar marker. -/
def guideC2 : List Char :=
  chars "<html><head><title>Guide</title></head><body>Hello</body></html>"

/-- The end-to-end scenario's directory. -/
def fsC2 : Fs := [("index.html", some idxC2), ("guide.html", some guideC2)]

/-- The template the extractor produces from the scenario index `idxC2`. -/
def tplC2 : TemplateRegions :=
  ⟨chars "<html><head></head><body><main>",
   chars "<nav id=\"sidebar\"><ul><li>Nav</li></ul></nav>",
   chars "<footer id=\"footer\">foo</footer></body>"⟩

/-- Content of `guide.html` after the end-to-end run. -/
def outC2 : List Char := create_integrated_page (extractPure guideC2) tplC2

/-- The scenario directory after the run. -/
def fsC2r : Fs := [("index.html", some idxC2), ("guide.html", some outC2)]

/-- The template the extractor produces from the degenerate index: empty
`before_content` (the article anchor sits at offset 0), empty sidebar (the
`+ 6` applied to the `-1` sentinel yields the empty slice `[22:5]`), and a
footer truncated at `</html>`. -/
def tplDeg : TemplateRegions := ⟨[], [], chars "<footer id=\"footer\">F"⟩

/-- Content of `guide.html` after the first run on the degenerate
directory. -/
def outDeg : List Char := create_integrated_page (extractPure guideDeg) tplDeg

/-- The degenerate directory after the first run. -/
def fsDeg1 : Fs := [("index.html", some idxDeg), ("guide.html", some outDeg)]

/-- The template the extractor produces from the well-formed index
`idxGood`. -/
def tplGood : TemplateRegions :=
  ⟨chars "<html><head></head><body><main>", chars "<nav id=\"sidebar\">N</nav>",
   chars "<footer id=\"footer\">f</footer></body>"⟩

/-- Content of `guide.html` after the run on the well-formed directory. -/
def outGood : List Char := create_integrated_page (extractPure guideGood) tplGood

/-- The well-formed directory after the run. -/
def fsGood1 : Fs := [("index.html", some idxGood), ("guide.html", some outGood)]

/-- The fixed segment `tmplD` without its trailing
`<section id="section-intro">` line. -/
def tmplDpre : List Char :=
  "\n  </style>\n  <script defer src=\"https://cdnjs.cloudflare.com/ajax/libs/highlight.js/10.1.1/highlight.min.js\" integrity=\"sha256-Uv3H6lx7dJmRfRvH8TH6kJD1TSK1aFcwgx+mdg3epi8=\" crossorigin></script>\n  <script>window.addEventListener(\x27DOMContentLoaded\x27, () => hljs.initHighlighting())</script>\n  <link rel=\"shortcut icon\" type=\"image/x-icon\" href=\"adaptyv_logo.png?\">\n</head>\n<body>\n<main>\n<article id=\"content\">\n".toList

/-- Adversarial sidebar text for the anchor rewrite: it contains the
overlapping anchor occurrences `href="#Xhref="` and `href="#index.html#F"`. -/
def s3 : List Char := chars "href=\"#Xhref=\"#index.html#F\""

theorem isPrefixL_append_self (p t : List Char) : isPrefixL p (p ++ t) = true := by
  induction p with
  | nil => simp [isPrefixL]
  | cons c cs ih => simp [isPrefixL, ih]

theorem isPrefixL_exists {p t : List Char} (h : isPrefixL p t = true) :
    ∃ r, t = p ++ r := by
  induction p generalizing t with
  | nil => exact ⟨t, rfl⟩
  | cons c cs ih =>
    cases t with
    | nil => simp [isPrefixL] at h
    | cons d ds =>
      simp only [isPrefixL, Bool.and_eq_true, beq_iff_eq] at h
      obtain ⟨rfl, h2⟩ := h
      obtain ⟨r, rfl⟩ := ih h2
      exact ⟨r, rfl⟩

theorem containsSub_append_left {p t : List Char} (x : List Char)
    (h : containsSub p t = true) : containsSub p (x ++ t) = true := by
  induction x with
  | nil => simpa using h
  | cons c cs ih => simp [containsSub, ih]

theorem containsSub_of_prefix {p t : List Char} (h : isPrefixL p t = true) :
    containsSub p t = true := by
  cases t with
  | nil => cases p with
    | nil => simp [containsSub, isPrefixL]
    | cons c cs => simp [isPrefixL] at h
  | cons d ds => simp [containsSub, h]

theorem containsSub_middle (p x y : List Char) : containsSub p (x ++ (p ++ y)) = true :=
  containsSub_append_left x ( containsSub_of_prefix (isPrefixL_append_self p y))

theorem isPrefixL_take_eq {p : List Char} (y : List Char) (j : Nat) (hj : p.length ≤ j) :
    isPrefixL p (y.take j) = isPrefixL p y := by
  induction p generalizing y j with
  | nil => simp [isPrefixL]
  | cons c cs ih =>
    cases y with
    | nil => simp
    | cons d ds =>
      cases j with
      | zero => simp at hj
      | succ j' =>
        simp only [List.take_succ_cons, isPrefixL]
        rw [ih ds j' (by simpa using hj)]

theorem isPrefixL_append_take_eq {p : List Char} (x y : List Char) (j : Nat)
    (hj : p.length ≤ x.length + j) :
    isPrefixL p (x ++ y.take j) = isPrefixL p (x ++ y) := by
  induction p generalizing x j with
  | nil => simp [isPrefixL]
  | cons c cs ih =>
    cases x with
    | nil =>
      simp only [List.nil_append]
      exact isPrefixL_take_eq y j (by simpa using hj)
    | cons d ds =>
      simp only [List.cons_append, isPrefixL, List.append_eq]
      rw [ih ds j (by simp at hj ⊢; omega)]

/-- Chunked substring check: an occurrence of `p` in `x ++ y` either starts
inside `x` (and then is already visible in `x ++ y.take (p.length - 1)`) or
lies inside `y`. -/
theorem containsSub_append_false {p : List Char} (x y : List Char)
    (h1 : containsSub p (x ++ y.take (p.length - 1)) = false)
    (h2 : containsSub p y = false) :
    containsSub p (x ++ y) = false := by
  cases p with
  | nil =>
    exfalso
    cases y with
    | nil => simp [containsSub, isPrefixL] at h2
    | cons d ds => simp [containsSub, isPrefixL] at h2
  | cons q qs =>
    induction x with
    | nil => simpa using h2
    | cons c cs ih =>
      simp only [List.cons_append, containsSub, Bool.or_eq_false_iff, List.append_eq] at h1 ⊢
      refine ⟨?_, ih h1.2⟩
      have := @isPrefixL_append_take_eq (q :: qs) (c :: cs) y
        ((q :: qs).length - 1) (by simp; omega)
      simp only [List.cons_append] at this
      rw [← this]
      exact h1.1

theorem ciEqL_length {p t : List Char} (h : ciEqL p t = true) : p.length = t.length := by
  induction p generalizing t with
  | nil => cases t with
    | nil => rfl
    | cons d ds => simp [ciEqL] at h
  | cons c cs ih =>
    cases t with
    | nil => simp [ciEqL] at h
    | cons d ds =>
      simp only [ciEqL, Bool.and_eq_true] at h
      simp [ih h.2]

theorem ciEqL_isPrefix_append {p m : List Char} (r : List Char) (h : ciEqL p m = true) :
    ciIsPrefixL p (m ++ r) = true := by
  induction p generalizing m with
  | nil => simp [ciIsPrefixL]
  | cons c cs ih =>
    cases m with
    | nil => simp [ciEqL] at h
    | cons d ds =>
      simp only [ciEqL, Bool.and_eq_true] at h
      simp [ciIsPrefixL, h.1, ih h.2]

theorem ciIsPrefixL_exists {p t : List Char} (h : ciIsPrefixL p t = true) :
    ∃ m r, t = m ++ r ∧ ciEqL p m = true := by
  induction p generalizing t with
  | nil => exact ⟨[], t, rfl, rfl⟩
  | cons c cs ih =>
    cases t with
    | nil => simp [ciIsPrefixL] at h
    | cons d ds =>
      simp only [ciIsPrefixL, Bool.and_eq_true] at h
      obtain ⟨m, r, rfl, hm⟩ := ih h.2
      exact ⟨d :: m, r, rfl, by simp [ciEqL, h.1, hm]⟩

theorem ciIsPrefixL_take_eq {p : List Char} (y : List Char) (j : Nat) (hj : p.length ≤ j) :
    ciIsPrefixL p (y.take j) = ciIsPrefixL p y := by
  induction p generalizing y j with
  | nil => simp [ciIsPrefixL]
  | cons c cs ih =>
    cases y with
    | nil => simp
    | cons d ds =>
      cases j with
      | zero => simp at hj
      | succ j' =>
        simp only [List.take_succ_cons, ciIsPrefixL]
        rw [ih ds j' (by simpa using hj)]

theorem ciIsPrefixL_append_take_eq {p : List Char} (x y : List Char) (j : Nat)
    (hj : p.length ≤ x.length + j) :
    ciIsPrefixL p (x ++ y.take j) = ciIsPrefixL p (x ++ y) := by
  induction p generalizing x j with
  | nil => simp [ciIsPrefixL]
  | cons c cs ih =>
    cases x with
    | nil =>
      simp only [List.nil_append]
      exact ciIsPrefixL_take_eq y j (by simpa using hj)
    | cons d ds =>
      simp only [List.cons_append, ciIsPrefixL, List.append_eq]
      rw [ih ds j (by simp at hj ⊢; omega)]

theorem ciOccurs_suffix_false {p s : List Char} (h : ciOccurs p s = false) (j : Nat) :
    ciIsPrefixL p (s.drop j) = false := by
  induction s generalizing j with
  | nil =>
    simp only [List.drop_nil]
    simpa [ciOccurs] using h
  | cons c cs ih =>
    simp only [ciOccurs, Bool.or_eq_false_iff] at h
    cases j with
    | zero => exact h.1
    | succ j' => exact ih h.2 j'

/-- No early occurrence in the guard region means no match attempt before
`x.length` can succeed. -/
theorem ciOccurs_guard {p : List Char} (x y : List Char)
    (h : ciOccurs p (x ++ y.take (p.length - 1)) = false) :
    ∀ j, j < x.length → ciIsPrefixL p ((x ++ y).drop j) = false := by
  intro j hj
  have hle : j ≤ x.length := Nat.le_of_lt hj
  rw [List.drop_append_of_le_length hle]
  have hx : x.drop j ≠ [] := by
    intro hnil
    have := List.length_drop j x
    rw [hnil] at this
    simp at this
    omega
  have hlen : p.length ≤ (x.drop j).length + (p.length - 1) := by
    have : 1 ≤ (x.drop j).length := by
      cases hd : x.drop j with
      | nil => exact absurd hd hx
      | cons a as => simp
    cases p with
    | nil => simp
    | cons q qs => simp at this ⊢; omega
  rw [← ciIsPrefixL_append_take_eq (x.drop j) y (p.length - 1) hlen]
  have hdrop : (x ++ y.take (p.length - 1)).drop j = x.drop j ++ y.take (p.length - 1) :=
    List.drop_append_of_le_length hle
  rw [← hdrop]
  exact ciOccurs_suffix_false h j

theorem consumeAttrs2_sound {xs a r : List Char} (h : consumeAttrs2 xs = some (a, r)) :
    xs = a ++ '>' :: r ∧ ∀ x ∈ a, x ≠ '>' := by
  induction xs generalizing a r with
  | nil => simp [consumeAttrs2] at h
  | cons c cs ih =>
    by_cases hc : c = '>'
    · rw [consumeAttrs2, if_pos hc] at h
      simp only [Option.some.injEq, Prod.mk.injEq] at h
      obtain ⟨rfl, rfl⟩ := h
      subst hc
      exact ⟨rfl, by simp⟩
    · rw [consumeAttrs2, if_neg hc] at h
      cases hq : consumeAttrs2 cs with
      | none => rw [hq] at h; simp at h
      | some q =>
        obtain ⟨a2, r2⟩ := q
        rw [hq] at h
        simp only [Option.map_some', Option.some.injEq, Prod.mk.injEq] at h
        obtain ⟨rfl, rfl⟩ := h
        obtain ⟨hx, hall⟩ := ih hq
        refine ⟨by simp [hx], ?_⟩
        intro x hxmem
        rcases List.mem_cons.mp hxmem with rfl | hmem
        · exact hc
        · exact hall x hmem

theorem consumeAttrs2_complete {a : List Char} (r : List Char)
    (h : ∀ x ∈ a, x ≠ '>') : consumeAttrs2 (a ++ '>' :: r) = some (a, r) := by
  induction a with
  | nil => simp [consumeAttrs2]
  | cons c cs ih =>
    have hc : c ≠ '>' := h c (by simp)
    rw [List.cons_append, consumeAttrs2, if_neg hc,
      ih (fun x hx => h x (List.mem_cons_of_mem c hx))]
    rfl

theorem splitAtCi2_sound {pat xs i m r : List Char}
    (h : splitAtCi2 pat xs = some (i, m, r)) :
    xs = i ++ (m ++ r) ∧ ciEqL pat m = true := by
  induction xs generalizing i m r with
  | nil =>
    rw [splitAtCi2] at h
    split at h
    · rename_i hp
      simp only [Option.some.injEq, Prod.mk.injEq] at h
      obtain ⟨rfl, rfl, rfl⟩ := h
      cases pat with
      | nil => exact ⟨rfl, rfl⟩
      | cons q qs => simp [ciIsPrefixL] at hp
    · simp at h
  | cons c cs ih =>
    rw [splitAtCi2] at h
    split at h
    · rename_i hp
      simp only [Option.some.injEq, Prod.mk.injEq] at h
      obtain ⟨rfl, rfl, rfl⟩ := h
      obtain ⟨mm, rr, hx, hm⟩ := ciIsPrefixL_exists hp
      have hlen : pat.length = mm.length := ciEqL_length hm
      have htake : (c :: cs).take pat.length = mm := by rw [hx, hlen, List.take_left' rfl]
      have hdrop : (c :: cs).drop pat.length = rr := by rw [hx, hlen, List.drop_left' rfl]
      constructor
      · rw [htake, hdrop, hx]; simp
      · rw [htake]; exact hm
    · cases hq : splitAtCi2 pat cs with
      | none => rw [hq] at h; simp at h
      | some q =>
        obtain ⟨i2, m2, r2⟩ := q
        rw [hq] at h
        simp only [Option.map_some', Option.some.injEq, Prod.mk.injEq] at h
        obtain ⟨rfl, rfl, rfl⟩ := h
        obtain ⟨hx, hm⟩ := ih hq
        exact ⟨by simp [hx], hm⟩

theorem splitAtCi2_complete {pat m : List Char} (i r : List Char)
    (hm : ciEqL pat m = true)
    (hfirst : ∀ j, j < i.length → ciIsPrefixL pat ((i ++ (m ++ r)).drop j) = false) :
    splitAtCi2 pat (i ++ (m ++ r)) = some (i, m, r) := by
  induction i with
  | nil =>
    simp only [List.nil_append]
    have hpre : ciIsPrefixL pat (m ++ r) = true := ciEqL_isPrefix_append r hm
    have hlen : pat.length = m.length := ciEqL_length hm
    cases hmr : m ++ r with
    | nil =>
      have hm0 : m = [] := by cases m with
        | nil => rfl
        | cons a as => simp at hmr
      have hr0 : r = [] := by cases m with
        | nil => simpa using hmr
        | cons a as => simp at hmr
      subst hm0
      have hp0 : pat = [] := by cases pat with
        | nil => rfl
        | cons q qs => simp [ciEqL] at hm
      subst hp0 hr0
      rw [splitAtCi2]
      simp [ciIsPrefixL]
    | cons c cs =>
      rw [hmr] at hpre
      have hgoal : splitAtCi2 pat (c :: cs) =
          some ([], (c :: cs).take pat.length, (c :: cs).drop pat.length) := by
        simp [splitAtCi2, hpre]
      rw [hgoal, ← hmr, hlen, List.take_left' rfl, List.drop_left' rfl]
  | cons c i' ih =>
    have h0 : ciIsPrefixL pat (c :: (i' ++ (m ++ r))) = false := by
      have := hfirst 0 (by simp)
      simpa using this
    rw [List.cons_append, splitAtCi2, if_neg (by simp [h0]),
      ih (fun j hj => by simpa using hfirst (j + 1) (by simpa using hj))]
    rfl

theorem matchTagAt_none_of_not_prefix {ot ct cs : List Char}
    (h : ciIsPrefixL ot cs = false) : matchTagAt ot ct cs = none := by
  rw [matchTagAt, if_neg (by simp [h])]

theorem matchTagAt_sound {ot ct cs : List Char} {m : List Char × List Char × List Char}
    (h : matchTagAt ot ct cs = some m) :
    ∃ o attrs inner cl b,
      cs = o ++ attrs ++ '>' :: (inner ++ cl ++ b) ∧
      m = (o ++ attrs ++ '>' :: (inner ++ cl), inner, b) ∧
      ciEqL ot o = true ∧ ciEqL ct cl = true ∧ (∀ x ∈ attrs, x ≠ '>') := by
  rw [matchTagAt] at h
  split at h
  case isFalse => simp at h
  case isTrue hp =>
    obtain ⟨o, rest, hcs, ho⟩ := ciIsPrefixL_exists hp
    have hlen : ot.length = o.length := ciEqL_length ho
    have hdrop : cs.drop ot.length = rest := by rw [hcs, hlen, List.drop_left' rfl]
    have htake : cs.take ot.length = o := by rw [hcs, hlen, List.take_left' rfl]
    rw [hdrop] at h
    cases hca : consumeAttrs2 rest with
    | none => rw [hca] at h; simp at h
    | some pa =>
      obtain ⟨attrs, afterGt⟩ := pa
      rw [hca] at h
      dsimp only at h
      obtain ⟨hrest, hattrs⟩ := consumeAttrs2_sound hca
      cases hsp : splitAtCi2 ct afterGt with
      | none => rw [hsp] at h; simp at h
      | some ps =>
        obtain ⟨inner, cl, b⟩ := ps
        rw [hsp] at h
        simp only [Option.some.injEq] at h
        obtain ⟨hafter, hcl⟩ := splitAtCi2_sound hsp
        refine ⟨o, attrs, inner, cl, b, ?_, ?_, ho, hcl, hattrs⟩
        · rw [hcs, hrest, hafter]; simp
        · rw [← h, htake]

theorem matchTagAt_complete {ot ct o cl : List Char} (attrs inner b : List Char)
    (ho : ciEqL ot o = true) (hcl : ciEqL ct cl = true)
    (hattrs : ∀ x ∈ attrs, x ≠ '>')
    (hfirst : ∀ j, j < inner.length → ciIsPrefixL ct ((inner ++ (cl ++ b)).drop j) = false) :
    matchTagAt ot ct (o ++ attrs ++ '>' :: (inner ++ (cl ++ b))) =
      some (o ++ attrs ++ '>' :: (inner ++ cl), inner, b) := by
  have hlen : ot.length = o.length := ciEqL_length ho
  have hpre : ciIsPrefixL ot (o ++ (attrs ++ '>' :: (inner ++ (cl ++ b)))) = true :=
    ciEqL_isPrefix_append _ ho
  rw [matchTagAt]
  rw [show o ++ attrs ++ '>' :: (inner ++ (cl ++ b)) =
    o ++ (attrs ++ '>' :: (inner ++ (cl ++ b))) by simp]
  rw [if_pos hpre, hlen, List.drop_left' rfl, List.take_left' rfl,
    consumeAttrs2_complete _ hattrs]
  dsimp only
  rw [splitAtCi2_complete inner b hcl hfirst]

theorem searchTagInner_skip {ot ct : List Char} (a R : List Char)
    (h : ∀ j, j < a.length → ciIsPrefixL ot ((a ++ R).drop j) = false) :
    searchTagInner ot ct (a ++ R) = searchTagInner ot ct R := by
  induction a with
  | nil => simp
  | cons c a' ih =>
    have h0 : ciIsPrefixL ot (c :: (a' ++ R)) = false := by simpa using h 0 (by simp)
    rw [List.cons_append, searchTagInner, matchTagAt_none_of_not_prefix h0]
    exact ih (fun j hj => by simpa using h (j + 1) (by simpa using hj))

theorem searchTagInner_sound {ot ct c inner : List Char}
    (h : searchTagInner ot ct c = some inner) : CiTagMatch ot ct c := by
  induction c with
  | nil =>
    rw [searchTagInner] at h
    cases hm : matchTagAt ot ct [] with
    | none => rw [hm] at h; simp at h
    | some m =>
      obtain ⟨o, attrs, inner', cl, b, hcs, _, _, _, _⟩ := matchTagAt_sound hm
      exact absurd hcs.symm (by simp)
  | cons d ds ih =>
    rw [searchTagInner] at h
    cases hm : matchTagAt ot ct (d :: ds) with
    | none =>
      rw [hm] at h
      obtain ⟨a, o, attrs, inner', cl, b, hcs, ho, hcl, hattrs⟩ := ih h
      exact ⟨d :: a, o, attrs, inner', cl, b, by simp [hcs], ho, hcl, hattrs⟩
    | some m =>
      rw [hm] at h
      simp only [Option.some.injEq] at h
      obtain ⟨o, attrs, inner', cl, b, hcs, hmm, ho, hcl, hattrs⟩ := matchTagAt_sound hm
      exact ⟨[], o, attrs, inner', cl, b, by simp [hcs], ho, hcl, hattrs⟩

theorem searchTagInner_first {ot ct o cl : List Char} (a attrs inner b : List Char)
    (hone : ot ≠ [])
    (ho : ciEqL ot o = true) (hcl : ciEqL ct cl = true)
    (hattrs : ∀ x ∈ attrs, x ≠ '>')
    (hearly : ∀ j, j < a.length →
      ciIsPrefixL ot ((a ++ (o ++ attrs ++ '>' :: (inner ++ (cl ++ b)))).drop j) = false)
    (hfirst : ∀ j, j < inner.length → ciIsPrefixL ct ((inner ++ (cl ++ b)).drop j) = false) :
    searchTagInner ot ct (a ++ (o ++ attrs ++ '>' :: (inner ++ (cl ++ b)))) = some inner := by
  rw [searchTagInner_skip a _ hearly]
  have hlen : ot.length = o.length := ciEqL_length ho
  have hoc : o ≠ [] := by
    cases o with
    | nil =>
      cases ot with
      | nil => exact absurd rfl hone
      | cons q qs => simp at hlen
    | cons q qs => simp
  cases hoeq : o with
  | nil => exact absurd hoeq hoc
  | cons q qs =>
    subst hoeq
    rw [show (q :: qs) ++ attrs ++ '>' :: (inner ++ (cl ++ b)) =
      q :: (qs ++ attrs ++ '>' :: (inner ++ (cl ++ b))) by simp]
    rw [searchTagInner]
    rw [show q :: (qs ++ attrs ++ '>' :: (inner ++ (cl ++ b))) =
      (q :: qs) ++ attrs ++ '>' :: (inner ++ (cl ++ b)) by simp]
    rw [matchTagAt_complete attrs inner b ho hcl hattrs hfirst]

theorem splitAtCi2_isSome_of_prefix_drop {pat xs : List Char} (j : Nat)
    (h : ciIsPrefixL pat (xs.drop j) = true) : (splitAtCi2 pat xs).isSome = true := by
  induction xs generalizing j with
  | nil =>
    simp only [List.drop_nil] at h
    rw [splitAtCi2, if_pos h]
    rfl
  | cons c cs ih =>
    by_cases hp : ciIsPrefixL pat (c :: cs) = true
    · rw [splitAtCi2, if_pos hp]; rfl
    · rw [splitAtCi2, if_neg hp]
      cases j with
      | zero => exact absurd (by simpa using h) hp
      | succ j' =>
        have := ih j' (by simpa using h)
        cases hq : splitAtCi2 pat cs with
        | none => rw [hq] at this; simp at this
        | some q => rfl

theorem searchTagInner_isSome_of_suffix {ot ct c : List Char} (j : Nat)
    {m : List Char × List Char × List Char} (h : matchTagAt ot ct (c.drop j) = some m) :
    (searchTagInner ot ct c).isSome = true := by
  induction c generalizing j with
  | nil =>
    simp only [List.drop_nil] at h
    rw [searchTagInner, h]
    rfl
  | cons d ds ih =>
    rw [searchTagInner]
    cases hm : matchTagAt ot ct (d :: ds) with
    | some m' => rfl
    | none =>
      cases j with
      | zero => rw [List.drop_zero] at h; exact absurd h (by simp [hm])
      | succ j' => exact ih j' (by simpa using h)

/-- A content has some case-insensitive tag match iff the leftmost search
succeeds. -/
theorem ciTagMatch_iff_search (ot ct c : List Char) :
    CiTagMatch ot ct c ↔ (searchTagInner ot ct c).isSome = true := by
  constructor
  · rintro ⟨a, o, attrs, inner, cl, b, rfl, ho, hcl, hattrs⟩
    have hpre : ciIsPrefixL ot (o ++ (attrs ++ '>' :: (inner ++ cl ++ b))) = true :=
      ciEqL_isPrefix_append _ ho
    have hlen : ot.length = o.length := ciEqL_length ho
    have hsp : (splitAtCi2 ct (inner ++ cl ++ b)).isSome = true := by
      refine splitAtCi2_isSome_of_prefix_drop inner.length ?_
      rw [List.append_assoc, List.drop_left]
      exact ciEqL_isPrefix_append b hcl
    have hmat : (matchTagAt ot ct (o ++ attrs ++ '>' :: (inner ++ cl ++ b))).isSome = true := by
      rw [matchTagAt]
      rw [show o ++ attrs ++ '>' :: (inner ++ cl ++ b) =
        o ++ (attrs ++ '>' :: (inner ++ cl ++ b)) by simp]
      rw [if_pos hpre, hlen, List.drop_left, consumeAttrs2_complete _ hattrs]
      dsimp only
      cases hq : splitAtCi2 ct (inner ++ cl ++ b) with
      | none => rw [hq] at hsp; simp at hsp
      | some q => rfl
    cases hm : matchTagAt ot ct (o ++ attrs ++ '>' :: (inner ++ cl ++ b)) with
    | none => rw [hm] at hmat; simp at hmat
    | some m =>
      have hm2 : matchTagAt ot ct
          ((a ++ (o ++ attrs ++ '>' :: (inner ++ cl ++ b))).drop a.length) = some m := by
        rw [List.drop_left]
        exact hm
      have hre : a ++ o ++ attrs ++ '>' :: (inner ++ cl ++ b) =
          a ++ (o ++ attrs ++ '>' :: (inner ++ cl ++ b)) := by simp
      rw [hre]
      exact searchTagInner_isSome_of_suffix a.length hm2
  · intro h
    cases hs : searchTagInner ot ct c with
    | none => rw [hs] at h; simp at h
    | some inner => exact searchTagInner_sound hs

/-- Claim C4: whenever the content has a case-insensitive
`<title[^>]*>(.*?)</title>` match, the extracted title is the trimmed inner
text of the first such match; when it has none, the title is the placeholder
`"Documentation"`.  The first-match side conditions say that no
case-insensitive `<title` occurrence starts before the matched one and that
the matched close tag is the first one after the `>`. -/
theorem extract_title_spec (c : List Char) :
    (¬ CiTagMatch (chars "<title") (chars "</title>") c →
      (extractPure c).title = chars "Documentation") ∧
    (∀ a o attrs inner cl b,
      c = a ++ (o ++ attrs ++ '>' :: (inner ++ (cl ++ b))) →
      ciEqL (chars "<title") o = true →
      ciEqL (chars "</title>") cl = true →
      (∀ x ∈ attrs, x ≠ '>') →
      ciOccurs (chars "<title") (a ++ o.take 5) = false →
      ciOccurs (chars "</title>") (inner ++ cl.take 7) = false →
      (extractPure c).title = pyStrip inner) := by
  constructor
  · intro hno
    cases hs : searchTagInner (chars "<title") (chars "</title>") c with
    | some inner => exact absurd (searchTagInner_sound hs) hno
    | none => simp [extractPure, hs]
  · intro a o attrs inner cl b hc ho hcl hattrs hearly hlazy
    have holen : o.length = 6 := by
      have h1 := ciEqL_length ho
      have h2 : (chars "<title").length = 6 := by decide
      omega
    have hcllen : cl.length = 8 := by
      have h1 := ciEqL_length hcl
      have h2 : (chars "</title>").length = 8 := by decide
      omega
    have hotake : (o ++ attrs ++ '>' :: (inner ++ (cl ++ b))).take 5 = o.take 5 := by
      rw [show o ++ attrs ++ '>' :: (inner ++ (cl ++ b)) =
        o ++ (attrs ++ '>' :: (inner ++ (cl ++ b))) by simp]
      exact List.take_append_of_le_length (by omega)
    have hcltake : (cl ++ b).take 7 = cl.take 7 :=
      List.take_append_of_le_length (by omega)
    have hearly' : ∀ j, j < a.length →
        ciIsPrefixL (chars "<title")
          ((a ++ (o ++ attrs ++ '>' :: (inner ++ (cl ++ b)))).drop j) = false := by
      refine ciOccurs_guard a _ ?_
      rw [show (chars "<title").length - 1 = 5 from by decide, hotake]
      exact hearly
    have hlazy' : ∀ j, j < inner.length →
        ciIsPrefixL (chars "</title>") ((inner ++ (cl ++ b)).drop j) = false := by
      refine ciOccurs_guard inner (cl ++ b) ?_
      rw [show (chars "</title>").length - 1 = 7 from by decide, hcltake]
      exact hlazy
    have hsearch : searchTagInner (chars "<title") (chars "</title>") c = some inner := by
      rw [hc]
      exact searchTagInner_first a attrs inner b (by decide) ho hcl hattrs hearly' hlazy'
    simp [extractPure, hsearch]

/-- Witness for C4 at concrete inputs: a file with no title tag gets the
placeholder; a file with a cased, attributed title tag gets its trimmed
inner text. -/
theorem extract_title_spec_witness :
    (extractPure (chars "no title here")).title = chars "Documentation" ∧
    (extractPure (chars "<p><TITLE id=x> Hi </TITLE>ok")).title = chars "Hi" := by
  constructor
  · refine (extract_title_spec (chars "no title here")).1 ?_
    intro h
    have := (ciTagMatch_iff_search _ _ _).mp h
    rw [show searchTagInner (chars "<title") (chars "</title>") (chars "no title here") =
      none from by decide] at this
    simp at this
  · have h := (extract_title_spec (chars "<p><TITLE id=x> Hi </TITLE>ok")).2
      (chars "<p>") (chars "<TITLE") (chars " id=x") (chars " Hi ") (chars "</TITLE>")
      (chars "ok") (by decide) (by decide) (by decide) (by decide) (by decide) (by decide)
    rw [h]
    decide

theorem containsSub_nil_pat (x : List Char) : containsSub [] x = true := by
  cases x <;> simp [containsSub, isPrefixL]

theorem findIdx_none_iff (pat cs : List Char) :
    findIdx pat cs = none ↔ containsSub pat cs = false := by
  induction cs with
  | nil =>
    rw [findIdx, containsSub]
    by_cases h : isPrefixL pat [] = true
    · simp [h]
    · simp only [Bool.not_eq_true] at h
      simp [h]
  | cons c cs ih =>
    rw [findIdx, containsSub]
    by_cases h : isPrefixL pat (c :: cs) = true
    · simp [h]
    · rw [if_neg h]
      simp only [Bool.or_eq_false_iff]
      constructor
      · intro hm
        cases hf : findIdx pat cs with
        | none => exact ⟨by simpa using h, ih.mp hf⟩
        | some k => rw [hf] at hm; simp at hm
      · intro hm
        rw [ih.mpr hm.2]
        rfl

theorem containsSub_suffix_false {p s : List Char} (h : containsSub p s = false) (j : Nat) :
    isPrefixL p (s.drop j) = false := by
  induction s generalizing j with
  | nil =>
    simp only [List.drop_nil]
    simpa [containsSub] using h
  | cons c cs ih =>
    simp only [containsSub, Bool.or_eq_false_iff] at h
    cases j with
    | zero => exact h.1
    | succ j' => exact ih h.2 j'

theorem containsSub_guard {p : List Char} (x y : List Char)
    (h : containsSub p (x ++ y.take (p.length - 1)) = false) :
    ∀ j, j < x.length → isPrefixL p ((x ++ y).drop j) = false := by
  intro j hj
  have hle : j ≤ x.length := Nat.le_of_lt hj
  rw [List.drop_append_of_le_length hle]
  have hlen : p.length ≤ (x.drop j).length + (p.length - 1) := by
    have h1 : 1 ≤ (x.drop j).length := by
      rw [List.length_drop]; omega
    cases p with
    | nil => simp
    | cons q qs => simp at h1 ⊢; omega
  rw [← isPrefixL_append_take_eq (x.drop j) y (p.length - 1) hlen]
  rw [← List.drop_append_of_le_length hle]
  exact containsSub_suffix_false h j

theorem findIdx_first {p : List Char} (a r : List Char)
    (h : containsSub p (a ++ p.take (p.length - 1)) = false) :
    findIdx p (a ++ (p ++ r)) = some a.length := by
  cases p with
  | nil =>
    exfalso
    have := containsSub_nil_pat (a ++ ([] : List Char).take (([] : List Char).length - 1))
    rw [h] at this
    simp at this
  | cons q qs =>
    induction a with
    | nil =>
      simp only [List.nil_append, List.cons_append]
      have hp : isPrefixL (q :: qs) (q :: (qs ++ r)) = true := by
        have := isPrefixL_append_self (q :: qs) r
        simpa using this
      rw [findIdx, if_pos hp]
      rfl
    | cons c cs ih =>
      have hguard : containsSub (q :: qs)
          ((c :: cs) ++ ((q :: qs) ++ r).take ((q :: qs).length - 1)) = false := by
        have htk : ((q :: qs) ++ r).take ((q :: qs).length - 1) =
            (q :: qs).take ((q :: qs).length - 1) :=
          List.take_append_of_le_length (by simp)
        rw [htk]
        exact h
      have h0 := containsSub_guard (c :: cs) ((q :: qs) ++ r) hguard 0 (by simp)
      rw [List.drop_zero, List.cons_append] at h0
      simp only [List.cons_append] at h0
      rw [List.cons_append, findIdx, if_neg (by simp [h0])]
      have hsub : containsSub (q :: qs) (cs ++ (q :: qs).take ((q :: qs).length - 1)) = false := by
        have h2 := h
        rw [List.cons_append, containsSub] at h2
        simp only [Bool.or_eq_false_iff] at h2
        exact h2.2
      rw [ih hsub]
      rfl

/-- Claim C5: whenever the content has a case-insensitive
`<body[^>]*>(.*?)</body>` match, the extracted body is the trimmed inner
HTML of the first such match; with no such match but with a (case-sensitive)
`</head>`, the body is the content after the first `</head>`, stripped, then
cleaned by the case-insensitive `</?html[^>]*>` and `</?body[^>]*>`
substitutions, in that order. -/
theorem extract_body_spec (c : List Char) :
    (∀ a o attrs inner cl b,
      c = a ++ (o ++ attrs ++ '>' :: (inner ++ (cl ++ b))) →
      ciEqL (chars "<body") o = true →
      ciEqL (chars "</body>") cl = true →
      (∀ x ∈ attrs, x ≠ '>') →
      ciOccurs (chars "<body") (a ++ o.take 4) = false →
      ciOccurs (chars "</body>") (inner ++ cl.take 6) = false →
      (extractPure c).content = pyStrip inner) ∧
    (∀ a r,
      ¬ CiTagMatch (chars "<body") (chars "</body>") c →
      c = a ++ (chars "</head>" ++ r) →
      containsSub (chars "</head>") (a ++ (chars "</head>").take 6) = false →
      (extractPure c).content =
        pySubTag (chars "body") (pySubTag (chars "html") (pyStrip r))) := by
  constructor
  · intro a o attrs inner cl b hc ho hcl hattrs hearly hlazy
    have holen : o.length = 5 := by
      have h1 := ciEqL_length ho
      have h2 : (chars "<body").length = 5 := by decide
      omega
    have hcllen : cl.length = 7 := by
      have h1 := ciEqL_length hcl
      have h2 : (chars "</body>").length = 7 := by decide
      omega
    have hotake : (o ++ attrs ++ '>' :: (inner ++ (cl ++ b))).take 4 = o.take 4 := by
      rw [show o ++ attrs ++ '>' :: (inner ++ (cl ++ b)) =
        o ++ (attrs ++ '>' :: (inner ++ (cl ++ b))) by simp]
      exact List.take_append_of_le_length (by omega)
    have hcltake : (cl ++ b).take 6 = cl.take 6 :=
      List.take_append_of_le_length (by omega)
    have hearly' : ∀ j, j < a.length →
        ciIsPrefixL (chars "<body")
          ((a ++ (o ++ attrs ++ '>' :: (inner ++ (cl ++ b)))).drop j) = false := by
      refine ciOccurs_guard a _ ?_
      rw [show (chars "<body").length - 1 = 4 from by decide, hotake]
      exact hearly
    have hlazy' : ∀ j, j < inner.length →
        ciIsPrefixL (chars "</body>") ((inner ++ (cl ++ b)).drop j) = false := by
      refine ciOccurs_guard inner (cl ++ b) ?_
      rw [show (chars "</body>").length - 1 = 6 from by decide, hcltake]
      exact hlazy
    have hsearch : searchTagInner (chars "<body") (chars "</body>") c = some inner := by
      rw [hc]
      exact searchTagInner_first a attrs inner b (by decide) ho hcl hattrs hearly' hlazy'
    simp [extractPure, hsearch]
  · intro a r hno hc hguard
    have hsearch : searchTagInner (chars "<body") (chars "</body>") c = none := by
      cases hs : searchTagInner (chars "<body") (chars "</body>") c with
      | some inner => exact absurd (searchTagInner_sound hs) hno
      | none => rfl
    have hfind : findIdx (chars "</head>") c = some a.length := by
      rw [hc]
      refine findIdx_first a r ?_
      rw [show (chars "</head>").length - 1 = 6 from by decide]
      exact hguard
    have hdrop : c.drop (a.length + 7) = r := by
      have h3 : c.drop (a.length + 7) = (c.drop a.length).drop 7 := by
        rw [List.drop_drop, Nat.add_comm]
      rw [h3, hc, List.drop_left]
      have h7 : (chars "</head>").length = 7 := by decide
      rw [← h7, List.drop_left]
    simp only [extractPure, hsearch, hfind, hdrop]

/-- Witness for C5 at concrete inputs: a cased, attributed body tag yields
its trimmed inner HTML; a body-less file with a `</head>` yields the cleaned
tail. -/
theorem extract_body_spec_witness :
    (extractPure (chars "<p><BODY a> Hi </BODY>z")).content = chars "Hi" ∧
    (extractPure (chars "<head>x</head> y <HTML a>z</body> w ")).content = chars "y z w" := by
  constructor
  · have h := (extract_body_spec (chars "<p><BODY a> Hi </BODY>z")).1
      (chars "<p>") (chars "<BODY") (chars " a") (chars " Hi ") (chars "</BODY>")
      (chars "z") (by decide) (by decide) (by decide) (by decide) (by decide) (by decide)
    rw [h]
    decide
  · have h := (extract_body_spec (chars "<head>x</head> y <HTML a>z</body> w ")).2
      (chars "<head>x") (chars " y <HTML a>z</body> w ")
      (by
        intro hmatch
        have := (ciTagMatch_iff_search _ _ _).mp hmatch
        rw [show searchTagInner (chars "<body") (chars "</body>")
          (chars "<head>x</head> y <HTML a>z</body> w ") = none from by decide] at this
        simp at this)
      (by decide) (by decide)
    rw [h]
    decide

/-- Claim C10 (implicit): with neither a case-insensitive `<body ...>...</body>`
match nor a `</head>` substring, the extractor returns the entire file
content, untrimmed and untouched, as the body. -/
theorem extract_body_whole_file (c : List Char)
    (h1 : ¬ CiTagMatch (chars "<body") (chars "</body>") c)
    (h2 : containsSub (chars "</head>") c = false) :
    (extractPure c).content = c := by
  have hsearch : searchTagInner (chars "<body") (chars "</body>") c = none := by
    cases hs : searchTagInner (chars "<body") (chars "</body>") c with
    | some inner => exact absurd (searchTagInner_sound hs) h1
    | none => rfl
  have hfind : findIdx (chars "</head>") c = none := (findIdx_none_iff _ _).mpr h2
  simp [extractPure, hsearch, hfind]

/-- Witness for C10 at a concrete input. -/
theorem extract_body_whole_file_witness :
    (extractPure (chars "hello <b>world</b>")).content = chars "hello <b>world</b>" := by
  refine extract_body_whole_file (chars "hello <b>world</b>") ?_ (by decide)
  intro hmatch
  have := (ciTagMatch_iff_search _ _ _).mp hmatch
  rw [show searchTagInner (chars "<body") (chars "</body>")
    (chars "hello <b>world</b>") = none from by decide] at this
  simp at this

theorem usefulStyles_eq (l : List (List Char)) :
    usefulStyles l = (l.filter keepStyle).map pyStrip := by
  induction l with
  | nil => rfl
  | cons s rest ih =>
    by_cases h : keepStyle s = true
    · rw [usefulStyles, if_pos h, List.filter_cons_of_pos h, List.map_cons, ih]
    · rw [usefulStyles, if_neg h, List.filter_cons_of_neg (by simpa using h), ih]

theorem extractPure_styles (c : List Char) :
    (extractPure c).styles =
      (if usefulStyles ((findAllTag (chars "<style") (chars "</style>") c).map
          (fun m => m.2)) = []
       then []
       else joinNL (usefulStyles ((findAllTag (chars "<style") (chars "</style>") c).map
          (fun m => m.2)))) := rfl

/-- Claim C6: a `<style>` block is kept iff its lowercased text contains one
of the keywords `badge, mermaid, highlight, code, pre, table, img`; kept
blocks are stripped and joined with newlines in source order; when no block
is kept the styles result is empty. -/
theorem extract_styles_spec (c : List Char) :
    (extractPure c).styles =
      joinNL ((((findAllTag (chars "<style") (chars "</style>") c).map
        (fun m => m.2)).filter keepStyle).map pyStrip) ∧
    ((((findAllTag (chars "<style") (chars "</style>") c).map
        (fun m => m.2)).filter keepStyle) = [] → (extractPure c).styles = []) ∧
    (∀ s, keepStyle s = true ↔
      ∃ kw ∈ styleKeywords, containsSub kw (lowerL s) = true) := by
  refine ⟨?_, ?_, ?_⟩
  · rw [extractPure_styles, usefulStyles_eq]
    by_cases h : ((findAllTag (chars "<style") (chars "</style>") c).map
        (fun m => m.2)).filter keepStyle = []
    · rw [h]
      simp [joinNL]
    · rw [if_neg (by simpa using h)]
  · intro h
    rw [extractPure_styles, usefulStyles_eq, h]
    simp [joinNL]
  · intro s
    rw [keepStyle, List.any_eq_true]

/-- Witness for C6 at concrete inputs: the `table` block is kept, the
`margin` block is not, and a file with only layout styles yields empty
styles. -/
theorem extract_styles_spec_witness :
    (extractPure (chars "<style>a table</style><style>b margin</style>")).styles =
      joinNL ((((findAllTag (chars "<style") (chars "</style>")
        (chars "<style>a table</style><style>b margin</style>")).map
        (fun m => m.2)).filter keepStyle).map pyStrip) ∧
    (extractPure (chars "<style>b margin</style>")).styles = [] := by
  constructor
  · exact (extract_styles_spec (chars "<style>a table</style><style>b margin</style>")).1
  · exact (extract_styles_spec (chars "<style>b margin</style>")).2.1 (by decide)

/-- Claim C8 (code bug in `generate_pdoc_template`): with every anchor
present except a `</nav>` after the sidebar tag, the function does not
signal absence.  `content.find('</nav>', sidebar_start)` returns `-1`, the
`+ 6` turns it into `5` before the `sidebar_end == -1` check (which is
therefore unsatisfiable), and the returned template's sidebar is the empty
slice `content[22:5]`. -/
theorem generate_template_missing_nav_close :
    generate_pdoc_template (some idxDeg) =
      some ⟨[], [], chars "<footer id=\"footer\">F"⟩ := by decide

/-- Claim C9: a read failure inside `extract_html_content` yields `None`
instead of raising, and the driver's loop skips that file, leaving the
directory untouched by that iteration, and goes on with the remaining
candidates. -/
theorem extract_failure_skips :
    extract_html_content none = none ∧
    ∀ (template_data : TemplateRegions) (n : String) (rest : List String) (fs : Fs),
      readFs fs n = some none →
      processFiles template_data (n :: rest) fs = processFiles template_data rest fs := by
  constructor
  · rfl
  · intro template_data n rest fs h
    rw [processFiles, h]
    rfl

/-- Witness for C9: a directory whose only file is unreadable survives the
processing loop unchanged. -/
theorem extract_failure_skips_witness :
    extract_html_content none = none ∧
    processFiles ⟨[], [], []⟩ ["a.html"] [("a.html", none)] = [("a.html", none)] := by
  constructor
  · exact extract_failure_skips.1
  · rw [extract_failure_skips.2 ⟨[], [], []⟩ "a.html" [] [("a.html", none)] rfl]
    rfl

theorem isPrefixL_length_le {p t : List Char} (h : isPrefixL p t = true) :
    p.length ≤ t.length := by
  induction p generalizing t with
  | nil => simp
  | cons c cs ih =>
    cases t with
    | nil => simp [isPrefixL] at h
    | cons d ds =>
      simp only [isPrefixL, Bool.and_eq_true] at h
      have := ih h.2
      simp only [List.length_cons]
      omega

theorem fragRest_sound {xs f r : List Char} (h : fragRest xs = some (f, r)) :
    xs = f ++ dquote :: r ∧ ∀ x ∈ f, x ≠ dquote := by
  induction xs generalizing f r with
  | nil => simp [fragRest] at h
  | cons c cs ih =>
    by_cases hc : c = dquote
    · rw [fragRest, if_pos hc] at h
      simp only [Option.some.injEq, Prod.mk.injEq] at h
      obtain ⟨rfl, rfl⟩ := h
      subst hc
      exact ⟨rfl, by simp⟩
    · rw [fragRest, if_neg hc] at h
      cases hq : fragRest cs with
      | none => rw [hq] at h; simp at h
      | some q =>
        obtain ⟨f2, r2⟩ := q
        rw [hq] at h
        simp only [Option.map_some', Option.some.injEq, Prod.mk.injEq] at h
        obtain ⟨rfl, rfl⟩ := h
        obtain ⟨hx, hall⟩ := ih hq
        refine ⟨by simp [hx], ?_⟩
        intro x hxmem
        rcases List.mem_cons.mp hxmem with rfl | hmem
        · exact hc
        · exact hall x hmem

theorem fragRest_complete {f : List Char} (r : List Char)
    (h : ∀ x ∈ f, x ≠ dquote) : fragRest (f ++ dquote :: r) = some (f, r) := by
  induction f with
  | nil => simp [fragRest]
  | cons c cs ih =>
    have hc : c ≠ dquote := h c (by simp)
    rw [List.cons_append, fragRest, if_neg hc,
      ih (fun x hx => h x (List.mem_cons_of_mem c hx))]
    rfl

theorem matchHrefAt_length {cs : List Char} {m : List Char × List Char}
    (h : matchHrefAt cs = some m) : m.2.length < cs.length := by
  rw [matchHrefAt] at h
  split at h
  case isFalse => simp at h
  case isTrue hp =>
    have hlen7 : 7 ≤ cs.length := by
      have := isPrefixL_length_le hp
      simpa using this
    cases hf : fragRest (cs.drop 7) with
    | none => rw [hf] at h; simp at h
    | some q =>
      obtain ⟨frag, rest⟩ := q
      rw [hf] at h
      dsimp only at h
      split at h
      · simp at h
      · simp only [Option.some.injEq] at h
        obtain ⟨hx, _⟩ := fragRest_sound hf
        have h1 : (cs.drop 7).length = cs.length - 7 := List.length_drop 7 cs
        have h2 : (cs.drop 7).length = frag.length + 1 + rest.length := by
          rw [hx]; simp; omega
        have : m.2 = rest := by rw [← h]
        rw [this]
        omega

theorem matchTagAt_length {ot ct cs : List Char} {m : List Char × List Char × List Char}
    (h : matchTagAt ot ct cs = some m) : m.2.2.length < cs.length := by
  obtain ⟨o, attrs, inner, cl, b, hcs, hm, _, _, _⟩ := matchTagAt_sound h
  have : m.2.2 = b := by rw [hm]
  rw [this, hcs]
  simp
  omega

theorem matchModuleAt_length {cs : List Char} {m : List Char × List Char}
    (h : matchModuleAt cs = some m) : m.2.length < cs.length := by
  rw [matchModuleAt] at h
  split at h
  case isFalse => simp at h
  case isTrue hp =>
    cases hc : consumeAttrs2 (cs.drop 7) with
    | none => rw [hc] at h; simp at h
    | some pa =>
      obtain ⟨attrs, afterGt⟩ := pa
      rw [hc] at h
      dsimp only at h
      split at h
      · cases hs : splitAtCi2 (chars "</script>") afterGt with
        | none => rw [hs] at h; simp at h
        | some ps =>
          obtain ⟨inner, cl, b⟩ := ps
          rw [hs] at h
          simp only [Option.some.injEq] at h
          obtain ⟨hx, _⟩ := consumeAttrs2_sound hc
          obtain ⟨hy, _⟩ := splitAtCi2_sound hs
          have hrest : m.2 = b := by rw [← h]
          have h1 : (cs.drop 7).length = cs.length - 7 := List.length_drop 7 cs
          have h2 : (cs.drop 7).length = attrs.length + 1 + afterGt.length := by
            rw [hx]; simp; omega
          have h3 : afterGt.length = inner.length + (cl.length + b.length) := by
            rw [hy]; simp
          rw [hrest]
          omega
      · simp at h

theorem matchStripAt_length {name cs : List Char} {r : List Char}
    (h : matchStripAt name cs = some r) : r.length < cs.length := by
  have hbody : ∀ (rr r2 : List Char), matchStripBodyAt name rr = some r2 →
      r2.length < rr.length + 1 := by
    intro rr r2 h2
    rw [matchStripBodyAt] at h2
    split at h2
    · cases hc : consumeAttrs2 (rr.drop name.length) with
      | none => rw [hc] at h2; simp at h2
      | some q =>
        obtain ⟨a2, r3⟩ := q
        rw [hc] at h2
        simp only [Option.map_some', Option.some.injEq] at h2
        obtain ⟨hx, _⟩ := consumeAttrs2_sound hc
        have h1 : (rr.drop name.length).length ≤ rr.length := by
          rw [List.length_drop]; omega
        have h2' : (rr.drop name.length).length = a2.length + 1 + r3.length := by
          rw [hx]; simp; omega
        rw [← h2]
        omega
    · simp at h2
  cases cs with
  | nil => simp [matchStripAt] at h
  | cons c rest =>
    cases rest with
    | nil =>
      simp only [matchStripAt] at h
      split at h
      · have := hbody _ _ h
        simp only [List.length_nil] at this
        simp only [List.length_cons]
        omega
      · simp at h
    | cons c2 rest2 =>
      simp only [matchStripAt] at h
      split at h
      · split at h
        · have := hbody _ _ h
          simp only [List.length_cons] at this ⊢
          omega
        · have := hbody _ _ h
          simp only [List.length_cons] at this ⊢
          omega
      · simp at h

theorem findAllTagGo_fuel (ot ct : List Char) :
    ∀ (f g : Nat) (cs : List Char), cs.length ≤ f → cs.length ≤ g →
      findAllTagGo ot ct f cs = findAllTagGo ot ct g cs := by
  intro f
  induction f with
  | zero =>
    intro g cs hf hg
    have : cs = [] := by
      cases cs with
      | nil => rfl
      | cons c cs' => simp at hf
    subst this
    cases g <;> rfl
  | succ f ih =>
    intro g cs hf hg
    cases cs with
    | nil => cases g <;> rfl
    | cons c cs' =>
      cases g with
      | zero => simp at hg
      | succ g' =>
        rw [findAllTagGo, findAllTagGo]
        cases hm : matchTagAt ot ct (c :: cs') with
        | none =>
          have h1 : cs'.length ≤ f := by simp at hf; omega
          have h2 : cs'.length ≤ g' := by simp at hg; omega
          rw [ih g' cs' h1 h2]
        | some m =>
          have hb := matchTagAt_length hm
          have h1 : m.2.2.length ≤ f := by
            simp only [List.length_cons] at hf hb
            omega
          have h2 : m.2.2.length ≤ g' := by
            simp only [List.length_cons] at hg hb
            omega
          dsimp only
          rw [ih g' m.2.2 h1 h2]

theorem findAllTag_cons (ot ct : List Char) (c : Char) (cs : List Char) :
    findAllTag ot ct (c :: cs) =
      (match matchTagAt ot ct (c :: cs) with
       | some m => (m.1, m.2.1) :: findAllTag ot ct m.2.2
       | none => findAllTag ot ct cs) := by
  rw [findAllTag, List.length_cons, findAllTagGo]
  cases hm : matchTagAt ot ct (c :: cs) with
  | none => rfl
  | some m =>
    have hb := matchTagAt_length hm
    dsimp only
    rw [findAllTag, findAllTagGo_fuel ot ct cs.length m.2.2.length m.2.2
      (by simp only [List.length_cons] at hb; omega) (le_refl _)]

theorem findAllModuleGo_fuel :
    ∀ (f g : Nat) (cs : List Char), cs.length ≤ f → cs.length ≤ g →
      findAllModuleGo f cs = findAllModuleGo g cs := by
  intro f
  induction f with
  | zero =>
    intro g cs hf hg
    have : cs = [] := by
      cases cs with
      | nil => rfl
      | cons c cs' => simp at hf
    subst this
    cases g <;> rfl
  | succ f ih =>
    intro g cs hf hg
    cases cs with
    | nil => cases g <;> rfl
    | cons c cs' =>
      cases g with
      | zero => simp at hg
      | succ g' =>
        rw [findAllModuleGo, findAllModuleGo]
        cases hm : matchModuleAt (c :: cs') with
        | none =>
          have h1 : cs'.length ≤ f := by simp at hf; omega
          have h2 : cs'.length ≤ g' := by simp at hg; omega
          rw [ih g' cs' h1 h2]
        | some m =>
          have hb := matchModuleAt_length hm
          have h1 : m.2.length ≤ f := by
            simp only [List.length_cons] at hf hb
            omega
          have h2 : m.2.length ≤ g' := by
            simp only [List.length_cons] at hg hb
            omega
          dsimp only
          rw [ih g' m.2 h1 h2]

theorem findAllModule_cons (c : Char) (cs : List Char) :
    findAllModule (c :: cs) =
      (match matchModuleAt (c :: cs) with
       | some m => m.1 :: findAllModule m.2
       | none => findAllModule cs) := by
  rw [findAllModule, List.length_cons, findAllModuleGo]
  cases hm : matchModuleAt (c :: cs) with
  | none => rfl
  | some m =>
    have hb := matchModuleAt_length hm
    dsimp only
    rw [findAllModule, findAllModuleGo_fuel cs.length m.2.length m.2
      (by simp only [List.length_cons] at hb; omega) (le_refl _)]

theorem pySubTagGo_fuel (name : List Char) :
    ∀ (f g : Nat) (cs : List Char), cs.length ≤ f → cs.length ≤ g →
      pySubTagGo name f cs = pySubTagGo name g cs := by
  intro f
  induction f with
  | zero =>
    intro g cs hf hg
    have : cs = [] := by
      cases cs with
      | nil => rfl
      | cons c cs' => simp at hf
    subst this
    cases g <;> rfl
  | succ f ih =>
    intro g cs hf hg
    cases cs with
    | nil => cases g <;> rfl
    | cons c cs' =>
      cases g with
      | zero => simp at hg
      | succ g' =>
        rw [pySubTagGo, pySubTagGo]
        cases hm : matchStripAt name (c :: cs') with
        | none =>
          have h1 : cs'.length ≤ f := by simp at hf; omega
          have h2 : cs'.length ≤ g' := by simp at hg; omega
          rw [ih g' cs' h1 h2]
        | some r =>
          have hb := matchStripAt_length hm
          have h1 : r.length ≤ f := by
            simp only [List.length_cons] at hf hb
            omega
          have h2 : r.length ≤ g' := by
            simp only [List.length_cons] at hg hb
            omega
          dsimp only
          rw [ih g' r h1 h2]

theorem pySubTag_cons (name : List Char) (c : Char) (cs : List Char) :
    pySubTag name (c :: cs) =
      (match matchStripAt name (c :: cs) with
       | some r => pySubTag name r
       | none => c :: pySubTag name cs) := by
  rw [pySubTag, List.length_cons, pySubTagGo]
  cases hm : matchStripAt name (c :: cs) with
  | none => rfl
  | some r =>
    have hb := matchStripAt_length hm
    dsimp only
    rw [pySubTag, pySubTagGo_fuel name cs.length r.length r
      (by simp only [List.length_cons] at hb; omega) (le_refl _)]

theorem rewriteHrefGo_fuel :
    ∀ (f g : Nat) (cs : List Char), cs.length ≤ f → cs.length ≤ g →
      rewriteHrefGo f cs = rewriteHrefGo g cs := by
  intro f
  induction f with
  | zero =>
    intro g cs hf hg
    have : cs = [] := by
      cases cs with
      | nil => rfl
      | cons c cs' => simp at hf
    subst this
    cases g <;> rfl
  | succ f ih =>
    intro g cs hf hg
    cases cs with
    | nil => cases g <;> rfl
    | cons c cs' =>
      cases g with
      | zero => simp at hg
      | succ g' =>
        rw [rewriteHrefGo, rewriteHrefGo]
        cases hm : matchHrefAt (c :: cs') with
        | none =>
          have h1 : cs'.length ≤ f := by simp at hf; omega
          have h2 : cs'.length ≤ g' := by simp at hg; omega
          rw [ih g' cs' h1 h2]
        | some m =>
          have hb := matchHrefAt_length hm
          have h1 : m.2.length ≤ f := by
            simp only [List.length_cons] at hf hb
            omega
          have h2 : m.2.length ≤ g' := by
            simp only [List.length_cons] at hg hb
            omega
          dsimp only
          rw [ih g' m.2 h1 h2]

theorem rewriteHref_cons (c : Char) (cs : List Char) :
    rewriteHref (c :: cs) =
      (match matchHrefAt (c :: cs) with
       | some m => chars "href=\"index.html#" ++ m.1 ++ dquote :: rewriteHref m.2
       | none => c :: rewriteHref cs) := by
  rw [rewriteHref, List.length_cons, rewriteHrefGo]
  cases hm : matchHrefAt (c :: cs) with
  | none => rfl
  | some m =>
    have hb := matchHrefAt_length hm
    dsimp only
    rw [rewriteHref, rewriteHrefGo_fuel cs.length m.2.length m.2
      (by simp only [List.length_cons] at hb; omega) (le_refl _)]

theorem ciEqL_refl (p : List Char) : ciEqL p p = true := by
  induction p with
  | nil => rfl
  | cons c cs ih => simp [ciEqL, ciEqChar, ih]

theorem ciOccurs_eq_false_of_all (p s : List Char)
    (h : ∀ j, ciIsPrefixL p (s.drop j) = false) : ciOccurs p s = false := by
  induction s with
  | nil => simpa using h 0
  | cons c cs ih =>
    rw [ciOccurs]
    have h0 := h 0
    rw [List.drop_zero] at h0
    rw [h0, ih (fun j => by simpa using h (j + 1))]
    rfl

theorem ciIsPrefixL_false_in_region {p0 : Char} (p x y : List Char)
    (hx : ∀ ch ∈ x, ciEqChar p0 ch = false) (j : Nat) (hj : j < x.length) :
    ciIsPrefixL (p0 :: p) ((x ++ y).drop j) = false := by
  rw [List.drop_append_of_le_length (Nat.le_of_lt hj)]
  cases hd : x.drop j with
  | nil =>
    have := List.length_drop j x
    rw [hd] at this
    simp at this
    omega
  | cons c t =>
    have hc : c ∈ x := by
      have : c ∈ x.drop j := by rw [hd]; simp
      exact List.mem_of_mem_drop this
    rw [List.cons_append, ciIsPrefixL, hx c hc]
    rfl

theorem drop_append_ge {α : Type} (x y : List α) (k : Nat) :
    (x ++ y).drop (x.length + k) = y.drop k := by
  rw [← List.drop_drop, List.drop_left]

/-- No case-insensitive occurrence of a `p0`-headed pattern in
`x ++ (inner ++ z)` when no character of `x` or `inner` matches `p0` and the
pattern matches at no suffix of `z`. -/
theorem ciOccurs_sandwich {p0 : Char} (p x inner z : List Char)
    (hx : ∀ ch ∈ x, ciEqChar p0 ch = false)
    (hinner : ∀ ch ∈ inner, ciEqChar p0 ch = false)
    (hz : ∀ k, ciIsPrefixL (p0 :: p) (z.drop k) = false) :
    ciOccurs (p0 :: p) (x ++ (inner ++ z)) = false := by
  refine ciOccurs_eq_false_of_all _ _ ?_
  intro j
  by_cases hjx : j < x.length
  · exact ciIsPrefixL_false_in_region p x (inner ++ z) hx j hjx
  · have hj1 : j = x.length + (j - x.length) := by omega
    rw [hj1, drop_append_ge]
    set k := j - x.length with hk
    by_cases hki : k < inner.length
    · exact ciIsPrefixL_false_in_region p inner z hinner k hki
    · have hk1 : k = inner.length + (k - inner.length) := by omega
      rw [hk1, drop_append_ge]
      exact hz _

theorem matchModuleAt_none_of_not_prefix {cs : List Char}
    (h : ciIsPrefixL (chars "<script") cs = false) : matchModuleAt cs = none := by
  rw [matchModuleAt, if_neg (by simp [h])]

theorem findAllModule_eq_nil {cs : List Char}
    (h : ∀ j, matchModuleAt (cs.drop j) = none) : findAllModule cs = [] := by
  induction cs with
  | nil => rfl
  | cons c cs' ih =>
    rw [findAllModule_cons]
    have h0 := h 0
    rw [List.drop_zero] at h0
    rw [h0]
    exact ih (fun j => by simpa using h (j + 1))

/-- Claim C7 counterexample: a `<script>` element with neither a `src` nor a
`type` attribute IS collected by the general script pattern (the
`(?:src=...|type=...)*` alternation may match zero times), so the scripts
result is not empty as the claim would require. -/
theorem scripts_attrless_collected_counterexample :
    (extractPure (chars "<script>x</script>")).scripts = chars "<script>x</script>" ∧
    (extractPure (chars "<script>x</script>")).scripts ≠ [] := by
  constructor
  · decide
  · decide

/-- Claim C7 (amended): the general script pattern collects every
`<script ...>...</script>` element regardless of the presence of `src` or
`type` attributes — in particular an element with neither attribute — and
`<script type="module">...</script>` blocks are additionally collected
independently and prepended, so a module script appears twice. -/
theorem scripts_spec_amended :
    (∀ inner : List Char, (∀ ch ∈ inner, ciEqChar '<' ch = false) →
      (extractPure (chars "<script>" ++ (inner ++ chars "</script>"))).scripts =
        chars "<script>" ++ (inner ++ chars "</script>")) ∧
    (extractPure (chars "<script type=\"module\">y</script>")).scripts =
      chars "<script type=\"module\">y</script>" ++ '\n' ::
        chars "<script type=\"module\">y</script>" := by
  constructor
  · intro inner hlt
    set C := chars "<script>" ++ (inner ++ chars "</script>") with hC
    have hsplit : chars "<script>" = chars "<script" ++ ['>'] := by decide
    have hclose : chars "</script>" = '<' :: chars "/script>" := by decide
    have hCshape : C = chars "<script" ++ ([] : List Char) ++
        '>' :: (inner ++ (chars "</script>" ++ [])) := by
      rw [hC, hsplit]
      simp
    -- the first close tag after the `>` is the real one
    have hfirst : ∀ j, j < inner.length →
        ciIsPrefixL (chars "</script>")
          ((inner ++ (chars "</script>" ++ [])).drop j) = false := by
      intro j hj
      rw [hclose]
      exact ciIsPrefixL_false_in_region _ inner _ hlt j hj
    have hmatch : matchTagAt (chars "<script") (chars "</script>")
        (chars "<script" ++ ([] : List Char) ++ '>' :: (inner ++ (chars "</script>" ++ []))) =
        some (chars "<script" ++ ([] : List Char) ++ '>' :: (inner ++ chars "</script>"),
          inner, []) :=
      matchTagAt_complete [] inner [] (ciEqL_refl _) (ciEqL_refl _) (by simp) hfirst
    -- the general findall returns exactly the whole element
    have hCcons : C = '<' :: (chars "script>" ++ (inner ++ chars "</script>")) := by
      rw [hC, show chars "<script>" = '<' :: chars "script>" from by decide]
      simp
    have hgen : findAllTag (chars "<script") (chars "</script>") C =
        [(chars "<script" ++ ([] : List Char) ++ '>' :: (inner ++ chars "</script>"),
          inner)] := by
      rw [hCcons, findAllTag_cons, ← hCcons, hCshape, hmatch]
      rfl
    -- no module match anywhere
    have hmod : findAllModule C = [] := by
      refine findAllModule_eq_nil ?_
      intro j
      cases j with
      | zero =>
        rw [List.drop_zero]
        rw [matchModuleAt]
        have hpre : ciIsPrefixL (chars "<script") C = true := by
          rw [hC, hsplit]
          rw [show chars "<script" ++ ['>'] ++ (inner ++ chars "</script>") =
            chars "<script" ++ (['>'] ++ (inner ++ chars "</script>")) from by simp]
          exact ciEqL_isPrefix_append _ (ciEqL_refl _)
        rw [if_pos hpre]
        have hdrop7 : C.drop 7 = '>' :: (inner ++ chars "</script>") := by
          rw [hC, hsplit]
          rw [show chars "<script" ++ ['>'] ++ (inner ++ chars "</script>") =
            chars "<script" ++ ('>' :: (inner ++ chars "</script>")) from by simp]
          rw [show (7 : Nat) = (chars "<script").length from by decide]
          exact List.drop_left _ _
        rw [hdrop7]
        rw [show consumeAttrs2 ('>' :: (inner ++ chars "</script>")) =
          some ([], inner ++ chars "</script>") from by rw [consumeAttrs2]; simp]
        rfl
      | succ j' =>
        refine matchModuleAt_none_of_not_prefix ?_
        rw [hCcons]
        rw [show ('<' :: (chars "script>" ++ (inner ++ chars "</script>"))).drop (j' + 1) =
          (chars "script>" ++ (inner ++ chars "</script>")).drop j' from by simp]
        have hocc : ciOccurs (chars "<script")
            (chars "script>" ++ (inner ++ chars "</script>")) = false := by
          rw [show chars "<script" = '<' :: chars "script" from by decide]
          refine ciOccurs_sandwich _ _ _ _ ?_ hlt ?_
          · decide
          · intro k
            by_cases hk : k ≤ 9
            · interval_cases k <;> decide
            · rw [List.drop_eq_nil_of_le (by
                have h9 : (chars "</script>").length = 9 := by decide
                omega)]
              decide
        exact ciOccurs_suffix_false hocc j'
    -- assemble the scripts field
    have hfull : chars "<script" ++ ([] : List Char) ++ '>' :: (inner ++ chars "</script>") =
        C := by
      rw [hC, hsplit]
      simp
    rw [show (extractPure C).scripts =
        (if findAllModule C = [] then
          (if (findAllTag (chars "<script") (chars "</script>") C).map (fun m => m.1) = []
           then []
           else joinNL ((findAllTag (chars "<script") (chars "</script>") C).map
             (fun m => m.1)))
         else joinNL (findAllModule C) ++ '\n' ::
          (if (findAllTag (chars "<script") (chars "</script>") C).map (fun m => m.1) = []
           then []
           else joinNL ((findAllTag (chars "<script") (chars "</script>") C).map
             (fun m => m.1)))) from rfl]
    rw [hgen, hmod]
    simp only [List.map_cons, List.map_nil, if_true]
    rw [if_neg (by simp)]
    rw [show joinNL [chars "<script" ++ ([] : List Char) ++
      '>' :: (inner ++ chars "</script>")] =
      chars "<script" ++ ([] : List Char) ++ '>' :: (inner ++ chars "</script>") from rfl]
    rw [hfull]
  · decide

/-- Witness for C7's amended universal part at a concrete attribute-less
script. -/
theorem scripts_spec_amended_witness :
    (extractPure (chars "<script>" ++ (chars "y" ++ chars "</script>"))).scripts =
      chars "<script>" ++ (chars "y" ++ chars "</script>") := by
  exact scripts_spec_amended.1 (chars "y") (by decide)

theorem matchHrefAt_none_of_not_prefix {cs : List Char}
    (h : isPrefixL (chars "href=\"#") cs = false) : matchHrefAt cs = none := by
  rw [matchHrefAt, if_neg (by simp [h])]

theorem matchHrefAt_none_of_head {c : Char} (cs : List Char) (h : c ≠ 'h') :
    matchHrefAt (c :: cs) = none := by
  refine matchHrefAt_none_of_not_prefix ?_
  rw [show chars "href=\"#" = 'h' :: chars "ref=\"#" from by decide, isPrefixL]
  simp [h]
  intro he
  exact absurd he.symm h

theorem rewriteHref_id_of_nomatch {t : List Char}
    (h : ∀ j, matchHrefAt (t.drop j) = none) : rewriteHref t = t := by
  induction t with
  | nil => rfl
  | cons c cs ih =>
    rw [rewriteHref_cons]
    have h0 := h 0
    rw [List.drop_zero] at h0
    rw [h0]
    rw [ih (fun j => by simpa using h (j + 1))]

theorem rewriteHref_copy {m : List Char} (r : List Char)
    (h : ∀ ch ∈ m, ch ≠ 'h') : rewriteHref (m ++ r) = m ++ rewriteHref r := by
  induction m with
  | nil => simp
  | cons c m' ih =>
    rw [List.cons_append, rewriteHref_cons,
      matchHrefAt_none_of_head _ (h c (by simp)),
      ih (fun ch hch => h ch (List.mem_cons_of_mem c hch))]
    rfl

/-- Claim C3 counterexample: on the adversarial sidebar `s3` the occurrence
`href="#index.html#F"` (which overlaps the leftmost match) is NOT replaced
and survives into the output, re-applying the rewrite changes the result,
and the second application manufactures the double prefix
`index.html#index.html#`. -/
theorem href_rewrite_counterexample :
    containsSub (chars "href=\"#index.html#F\"") s3 = true ∧
    containsSub (chars "href=\"#index.html#F\"") (rewriteHref s3) = true ∧
    rewriteHref (rewriteHref s3) ≠ rewriteHref s3 ∧
    containsSub (chars "index.html#index.html#") (rewriteHref (rewriteHref s3)) = true := by
  refine ⟨by decide, by decide, by decide, by decide⟩

/-- Claim C3 (amended): the rewrite replaces each leftmost, non-overlapping
occurrence of `href="#fragment"` (fragment non-empty and quote-free) with
`href="index.html#fragment"`; the pattern never matches at an anchor whose
text after `href="` does not start with `#`, in particular not at an
already-rewritten `href="index.html#fragment"`; and re-applying the rewrite
leaves a rewritten sidebar unchanged provided no `href="#` text remains in
it (occurrences overlapping an earlier match can survive and then a second
application does change the result — see the counterexample). -/
theorem href_rewrite_spec_amended :
    (∀ f b : List Char, f ≠ [] → (∀ x ∈ f, x ≠ dquote) →
      rewriteHref (chars "href=\"#" ++ (f ++ dquote :: b)) =
        chars "href=\"index.html#" ++ (f ++ dquote :: rewriteHref b)) ∧
    (∀ rest : List Char, matchHrefAt (chars "href=\"index.html#" ++ rest) = none) ∧
    (∀ s : List Char, containsSub (chars "href=\"#") (rewriteHref s) = false →
      rewriteHref (rewriteHref s) = rewriteHref s) := by
  refine ⟨?_, ?_, ?_⟩
  · intro f b hne hq
    have hm : matchHrefAt (chars "href=\"#" ++ (f ++ dquote :: b)) = some (f, b) := by
      rw [matchHrefAt, if_pos (isPrefixL_append_self _ _)]
      rw [show (7 : Nat) = (chars "href=\"#").length from by decide, List.drop_left,
        fragRest_complete b hq]
      dsimp only
      rw [if_neg hne]
    have hcons : chars "href=\"#" ++ (f ++ dquote :: b) =
        'h' :: (chars "ref=\"#" ++ (f ++ dquote :: b)) := by
      rw [show chars "href=\"#" = 'h' :: chars "ref=\"#" from by decide]
      simp
    rw [hcons, rewriteHref_cons, ← hcons, hm]
    simp
  · intro rest
    refine matchHrefAt_none_of_not_prefix ?_
    have h := @isPrefixL_append_take_eq (chars "href=\"#") (chars "href=\"index.html#")
      rest 0 (by decide)
    rw [List.take_zero, List.append_nil] at h
    rw [← h]
    decide
  · intro s hno
    refine rewriteHref_id_of_nomatch ?_
    intro j
    exact matchHrefAt_none_of_not_prefix (containsSub_suffix_false hno j)

/-- Witness for C3's amended parts at concrete inputs. -/
theorem href_rewrite_spec_amended_witness :
    rewriteHref (chars "href=\"#" ++ (chars "m" ++ dquote :: [])) =
      chars "href=\"index.html#" ++ (chars "m" ++ dquote :: rewriteHref []) ∧
    matchHrefAt (chars "href=\"index.html#" ++ chars "m\"") = none ∧
    rewriteHref (rewriteHref (chars "href=\"#m\"")) = rewriteHref (chars "href=\"#m\"") :=
  ⟨href_rewrite_spec_amended.1 (chars "m") [] (by decide) (by decide),
   href_rewrite_spec_amended.2.1 (chars "m\""),
   href_rewrite_spec_amended.2.2 (chars "href=\"#m\"") (by decide)⟩

theorem readFs_writeFs_self (fs : Fs) (n : String) (c : List Char) :
    readFs (writeFs fs n c) n = some (some c) := by
  induction fs with
  | nil => simp [writeFs, readFs]
  | cons e rest ih =>
    obtain ⟨m, oc⟩ := e
    by_cases h : m = n
    · subst h; simp [writeFs, readFs]
    · simp [writeFs, readFs, h, ih]

theorem readFs_writeFs_ne {fs : Fs} {m n : String} {c : List Char} (h : m ≠ n) :
    readFs (writeFs fs n c) m = readFs fs m := by
  induction fs with
  | nil => simp [writeFs, readFs, Ne.symm h]
  | cons e rest ih =>
    obtain ⟨k, oc⟩ := e
    by_cases hk : k = n
    · subst hk; simp [writeFs, readFs, Ne.symm h]
    · by_cases hm : k = m
      · subst hm; simp [writeFs, readFs, hk]
      · simp [writeFs, readFs, hk, hm, ih]

theorem readFs_mem {fs : Fs} {n : String} {oc : Option (List Char)}
    (h : readFs fs n = some oc) : (n, oc) ∈ fs := by
  induction fs with
  | nil => simp [readFs] at h
  | cons e rest ih =>
    obtain ⟨m, oc'⟩ := e
    by_cases hm : m = n
    · subst hm
      simp [readFs] at h
      subst h
      exact List.mem_cons_self _ _
    · simp only [readFs, if_neg hm] at h
      exact List.mem_cons_of_mem _ (ih h)

theorem readFs_of_mem {fs : Fs} {n : String} {oc : Option (List Char)}
    (hnd : (fs.map Prod.fst).Nodup) (h : (n, oc) ∈ fs) : readFs fs n = some oc := by
  induction fs with
  | nil => simp at h
  | cons e rest ih =>
    obtain ⟨m, oc'⟩ := e
    simp only [List.map_cons, List.nodup_cons] at hnd
    rcases List.mem_cons.1 h with heq | hmem
    · simp only [Prod.mk.injEq] at heq
      obtain ⟨rfl, rfl⟩ := heq
      simp [readFs]
    · have hm : m ≠ n := by
        intro hmn
        subst hmn
        exact hnd.1 (List.mem_map.2 ⟨(m, oc), hmem, rfl⟩)
      simp only [readFs, if_neg hm]
      exact ih hnd.2 hmem

theorem readFs_mem_names {fs : Fs} {n : String} {oc : Option (List Char)}
    (h : readFs fs n = some oc) : n ∈ fs.map Prod.fst :=
  List.mem_map.2 ⟨(n, oc), readFs_mem h, rfl⟩

theorem writeFs_map_fst {fs : Fs} {n : String} (c : List Char)
    (h : n ∈ fs.map Prod.fst) : (writeFs fs n c).map Prod.fst = fs.map Prod.fst := by
  induction fs with
  | nil => simp at h
  | cons e rest ih =>
    obtain ⟨m, oc⟩ := e
    by_cases hm : m = n
    · subst hm; simp [writeFs]
    · have hn' : n ∈ rest.map Prod.fst := by
        simp only [List.map_cons, List.mem_cons] at h
        rcases h with h | h
        · exact absurd h.symm hm
        · exact h
      simp [writeFs, hm, ih hn']

theorem processFiles_map_fst (tpl : TemplateRegions) (ns : List String) (fs : Fs) :
    (processFiles tpl ns fs).map Prod.fst = fs.map Prod.fst := by
  induction ns generalizing fs with
  | nil => rfl
  | cons n rest ih =>
    simp only [processFiles]
    cases h1 : readFs fs n with
    | none => exact ih fs
    | some oc =>
      cases oc with
      | none => dsimp only [extract_html_content]; exact ih fs
      | some c =>
        dsimp only [extract_html_content]
        rw [ih]
        exact writeFs_map_fst _ (readFs_mem_names h1)

theorem processFiles_readFs_not_mem (tpl : TemplateRegions) (ns : List String) (fs : Fs)
    (n : String) : n ∉ ns → readFs (processFiles tpl ns fs) n = readFs fs n := by
  induction ns generalizing fs with
  | nil => intro _; rfl
  | cons m rest ih =>
    intro hn
    have hmn : m ≠ n := fun h => hn (h ▸ List.mem_cons_self m rest)
    have hrest : n ∉ rest := fun h => hn (List.mem_cons_of_mem m h)
    simp only [processFiles]
    cases h1 : readFs fs m with
    | none => exact ih _ hrest
    | some oc =>
      cases oc with
      | none => dsimp only [extract_html_content]; exact ih _ hrest
      | some c =>
        dsimp only [extract_html_content]
        rw [ih _ hrest]
        exact readFs_writeFs_ne (Ne.symm hmn)

theorem processFiles_readFs_mem (tpl : TemplateRegions) (ns : List String) (fs : Fs)
    (n : String) (c : List Char) :
    ns.Nodup → n ∈ ns → readFs fs n = some (some c) →
    readFs (processFiles tpl ns fs) n =
      some (some (create_integrated_page (extractPure c) tpl)) := by
  induction ns generalizing fs with
  | nil => intro _ hn _; simp at hn
  | cons m rest ih =>
    intro hnd hn hr
    rw [List.nodup_cons] at hnd
    by_cases hmn : n = m
    · subst hmn
      simp only [processFiles]
      rw [hr]
      dsimp only [extract_html_content]
      rw [processFiles_readFs_not_mem tpl rest _ n hnd.1]
      exact readFs_writeFs_self fs n _
    · have hn' : n ∈ rest := by
        rcases List.mem_cons.1 hn with h | h
        · exact absurd h hmn
        · exact h
      simp only [processFiles]
      cases h1 : readFs fs m with
      | none => exact ih _ hnd.2 hn' hr
      | some oc =>
        cases oc with
        | none => dsimp only [extract_html_content]; exact ih _ hnd.2 hn' hr
        | some c' =>
          dsimp only [extract_html_content]
          refine ih _ hnd.2 hn' ?_
          rw [readFs_writeFs_ne hmn]
          exact hr

theorem mem_scanCandidates {fs : Fs} {n : String} :
    n ∈ scanCandidates fs ↔ ∃ oc, (n, oc) ∈ fs ∧ isStandaloneEntry (n, oc) = true := by
  constructor
  · intro h
    obtain ⟨e, he, hfst⟩ := List.mem_map.1 h
    obtain ⟨m, oc⟩ := e
    obtain ⟨hin, hstd⟩ := List.mem_filter.1 he
    cases hfst
    exact ⟨oc, hin, hstd⟩
  · rintro ⟨oc, hin, hstd⟩
    exact List.mem_map.2 ⟨(n, oc), List.mem_filter.2 ⟨hin, hstd⟩, rfl⟩

theorem scanCandidates_eq_nil {fs : Fs}
    (h : ∀ e ∈ fs, isStandaloneEntry e = false) : scanCandidates fs = [] := by
  have hf : fs.filter isStandaloneEntry = [] := by
    rw [List.filter_eq_nil_iff]
    intro a ha
    simp [h a ha]
  simp [scanCandidates, hf]

theorem scanCandidates_nodup {fs : Fs} (hnd : (fs.map Prod.fst).Nodup) :
    (scanCandidates fs).Nodup :=
  List.Nodup.sublist (List.Sublist.map Prod.fst (List.filter_sublist fs)) hnd

theorem isStandaloneEntry_props {n : String} {oc : Option (List Char)}
    (h : isStandaloneEntry (n, oc) = true) :
    n ≠ "index.html" ∧ ∃ c, oc = some c ∧ containsSub marker c = false := by
  cases oc with
  | none => simp [isStandaloneEntry] at h
  | some c =>
    simp only [isStandaloneEntry, Bool.and_eq_true, bne_iff_ne, Bool.not_eq_true'] at h
    exact ⟨h.1.2, c, rfl, h.2⟩

/-- The composed page always contains the sidebar marker when the template
sidebar begins with it: the marker has no `h`, so the anchor rewrite copies
it verbatim to the head of the interpolated sidebar. -/
theorem compose_contains_marker (hd : ExtractedContent) (tpl : TemplateRegions)
    (hsb : isPrefixL marker tpl.sidebar = true) :
    containsSub marker (create_integrated_page hd tpl) = true := by
  obtain ⟨srest, hs⟩ := isPrefixL_exists hsb
  have hnoh : ∀ ch ∈ marker, ch ≠ 'h' := by decide
  have hrw : rewriteHref tpl.sidebar = marker ++ rewriteHref srest := by
    rw [hs]; exact rewriteHref_copy srest hnoh
  have hdecomp : create_integrated_page hd tpl =
      (tmplA ++ hd.title ++ tmplB ++ hd.title ++ tmplC ++ hd.styles ++ tmplD ++
        hd.content ++ tmplE) ++
        (marker ++
          (rewriteHref srest ++ tmplF ++ tpl.footer ++ tmplG ++ hd.scripts ++ tmplH)) := by
    simp only [create_integrated_page, hrw]
    simp [List.append_assoc]
  rw [hdecomp]
  exact containsSub_middle _ _ _

theorem outDeg_eq : outDeg =
    tmplA ++ chars "G" ++ tmplB ++ chars "G" ++ tmplC ++ [] ++ tmplD ++ chars "B" ++
      tmplE ++ rewriteHref tplDeg.sidebar ++ tmplF ++ chars "<footer id=\"footer\">F" ++
      tmplG ++ [] ++ tmplH := rfl

set_option maxRecDepth 8000 in
/-- The first run on the degenerate directory writes a page with NO sidebar
marker: the extracted sidebar is empty, and no fixed template segment
contains the marker. -/
theorem outDeg_no_marker : containsSub marker outDeg = false := by
  have hrw : rewriteHref tplDeg.sidebar = [] := by decide
  rw [outDeg_eq, hrw]
  simp only [tmplC, List.append_assoc, List.nil_append, List.append_nil]
  refine containsSub_append_false _ _ (by decide) ?_
  refine containsSub_append_false _ _ (by decide) ?_
  refine containsSub_append_false _ _ (by decide) ?_
  refine containsSub_append_false _ _ (by decide) ?_
  refine containsSub_append_false _ _ (by decide) ?_
  refine containsSub_append_false _ _ (by decide) ?_
  refine containsSub_append_false _ _ (by decide) ?_
  refine containsSub_append_false _ _ (by decide) ?_
  refine containsSub_append_false _ _ (by decide) ?_
  refine containsSub_append_false _ _ (by decide) ?_
  refine containsSub_append_false _ _ (by decide) ?_
  refine containsSub_append_false _ _ (by decide) ?_
  refine containsSub_append_false _ _ (by decide) ?_
  refine containsSub_append_false _ _ (by decide) ?_
  refine containsSub_append_false _ _ (by decide) ?_
  refine containsSub_append_false _ _ (by decide) ?_
  refine containsSub_append_false _ _ (by decide) ?_
  refine containsSub_append_false _ _ (by decide) ?_
  decide

/-- Claim C1 counterexample: on the degenerate directory `fsDeg` the first
run succeeds (the missing `</nav>` silently yields an empty template
sidebar), yet the file written by that run lacks the sidebar marker, so a
second run still finds `guide.html` as a standalone candidate — the second
run is NOT a no-op scan. -/
theorem driver_idempotence_counterexample :
    mainDriver fsDeg = some fsDeg1 ∧ scanCandidates fsDeg1 = ["guide.html"] := by
  refine ⟨rfl, ?_⟩
  have hstd : isStandaloneEntry ("guide.html", some outDeg) = true := by
    simp only [isStandaloneEntry, outDeg_no_marker]
    decide
  have hstd0 : isStandaloneEntry ("index.html", some idxDeg) = false := by decide
  simp [scanCandidates, fsDeg1, List.filter_cons, hstd0, hstd]

/-- Claim C1 (amended): the second-run no-op property holds provided the
extracted template sidebar begins with the literal marker
`<nav id="sidebar">` (equivalently, the index has a `</nav>` closing its
sidebar tag, so the `[sidebar_start : sidebar_end]` slice is non-degenerate):
whenever a run `mainDriver fs = some fs'` happens under an index whose
template satisfies that proviso (and directory file names are unique), the
resulting directory has zero standalone candidates and a second run is the
identity, because every file written by the first run contains the marker
copied verbatim from the sidebar by the anchor rewrite. -/
theorem driver_idempotent_of_sidebar_marker (fs fs' : Fs) (idxc : List Char)
    (tpl : TemplateRegions)
    (hnd : (fs.map Prod.fst).Nodup)
    (hidx : readFs fs "index.html" = some (some idxc))
    (hgen : generate_pdoc_template (some idxc) = some tpl)
    (hsb : isPrefixL marker tpl.sidebar = true)
    (hrun : mainDriver fs = some fs') :
    scanCandidates fs' = [] ∧ mainDriver fs' = some fs' := by
  simp only [mainDriver, hidx, hgen] at hrun
  by_cases hsc : scanCandidates fs = []
  · rw [if_pos hsc] at hrun
    obtain rfl := Option.some.inj hrun
    refine ⟨hsc, ?_⟩
    simp only [mainDriver, hidx, hgen]
    rw [if_pos hsc]
  · rw [if_neg hsc] at hrun
    obtain rfl := Option.some.inj hrun
    have hnames : (processFiles tpl (scanCandidates fs) fs).map Prod.fst = fs.map Prod.fst :=
      processFiles_map_fst tpl _ fs
    have hnd' : ((processFiles tpl (scanCandidates fs) fs).map Prod.fst).Nodup := by
      rw [hnames]; exact hnd
    have hstnd : (scanCandidates fs).Nodup := scanCandidates_nodup hnd
    have hidxnot : "index.html" ∉ scanCandidates fs := by
      intro hmem
      obtain ⟨oc, _, hstd⟩ := mem_scanCandidates.1 hmem
      exact (isStandaloneEntry_props hstd).1 rfl
    have hidx' : readFs (processFiles tpl (scanCandidates fs) fs) "index.html" =
        some (some idxc) := by
      rw [processFiles_readFs_not_mem tpl _ fs _ hidxnot]
      exact hidx
    have hall : ∀ e ∈ processFiles tpl (scanCandidates fs) fs,
        isStandaloneEntry e = false := by
      rintro ⟨n, oc⟩ hmem
      cases hb : isStandaloneEntry (n, oc) with
      | false => rfl
      | true =>
        exfalso
        have hr' : readFs (processFiles tpl (scanCandidates fs) fs) n = some oc :=
          readFs_of_mem hnd' hmem
        by_cases hn : n ∈ scanCandidates fs
        · obtain ⟨oc₀, hin₀, hstd₀⟩ := mem_scanCandidates.1 hn
          obtain ⟨-, c₀, rfl, -⟩ := isStandaloneEntry_props hstd₀
          have hr₀ : readFs fs n = some (some c₀) := readFs_of_mem hnd hin₀
          have hw := processFiles_readFs_mem tpl _ fs n c₀ hstnd hn hr₀
          rw [hw] at hr'
          obtain rfl := Option.some.inj hr'
          have hctn := compose_contains_marker (extractPure c₀) tpl hsb
          simp [isStandaloneEntry, hctn] at hb
        · have hr0 : readFs fs n = some oc := by
            rw [← processFiles_readFs_not_mem tpl _ fs n hn]
            exact hr'
          exact hn (mem_scanCandidates.2 ⟨oc, readFs_mem hr0, hb⟩)
    have hscan' : scanCandidates (processFiles tpl (scanCandidates fs) fs) = [] :=
      scanCandidates_eq_nil hall
    refine ⟨hscan', ?_⟩
    simp only [mainDriver, hidx', hgen]
    rw [if_pos hscan']

set_option maxRecDepth 8000 in
/-- Witness for C1's amended statement: the well-formed directory `fsGood`
satisfies the proviso, its run yields `fsGood1`, and the theorem gives a
candidate-free, fixed-point second run. -/
theorem driver_idempotent_of_sidebar_marker_witness :
    scanCandidates fsGood1 = [] ∧ mainDriver fsGood1 = some fsGood1 :=
  driver_idempotent_of_sidebar_marker fsGood fsGood1 idxGood tplGood (by decide) rfl rfl
    (by decide) rfl

set_option maxRecDepth 8000 in
/-- Claim C2: on the scenario directory (index with content article, a
`<nav id="sidebar">...</nav>` block and a footer before `</html>`; a
`guide.html` with `<title>Guide</title>`, `<body>Hello</body>` and no
marker), one driver run rewrites `guide.html` to `outC2`, which contains
`Hello` inside the `<section id="section-intro">` element and contains the
sidebar block extracted from the index. -/
theorem end_to_end_scenario :
    mainDriver fsC2 = some fsC2r ∧
    readFs fsC2r "guide.html" = some (some outC2) ∧
    containsSub (chars "<section id=\"section-intro\">\nHello\n</section>") outC2 = true ∧
    containsSub (chars "<nav id=\"sidebar\"><ul><li>Nav</li></ul></nav>") outC2 = true := by
  have hout : outC2 =
      tmplA ++ chars "Guide" ++ tmplB ++ chars "Guide" ++ tmplC ++ [] ++ tmplD ++
        chars "Hello" ++ tmplE ++ rewriteHref tplC2.sidebar ++ tmplF ++ tplC2.footer ++
        tmplG ++ [] ++ tmplH := rfl
  have hsplitD : tmplD = tmplDpre ++ chars "<section id=\"section-intro\">\n" := by decide
  have hsplitE : tmplE = chars "\n</section>" ++ chars "\n</article>\n\n" := by decide
  have hpat : chars "<section id=\"section-intro\">\nHello\n</section>" =
      chars "<section id=\"section-intro\">\n" ++ chars "Hello" ++ chars "\n</section>" := by
    decide
  have hrw : rewriteHref tplC2.sidebar =
      chars "<nav id=\"sidebar\"><ul><li>Nav</li></ul></nav>" := by decide
  refine ⟨rfl, rfl, ?_, ?_⟩
  · have hdec : outC2 =
        (tmplA ++ chars "Guide" ++ tmplB ++ chars "Guide" ++ tmplC ++ tmplDpre) ++
          ((chars "<section id=\"section-intro\">\n" ++ chars "Hello" ++
              chars "\n</section>") ++
            (chars "\n</article>\n\n" ++ rewriteHref tplC2.sidebar ++ tmplF ++
              tplC2.footer ++ tmplG ++ tmplH)) := by
      rw [hout, hsplitD, hsplitE]
      simp [List.append_assoc]
    rw [hpat, hdec]
    exact containsSub_middle _ _ _
  · have hdec2 : outC2 =
        (tmplA ++ chars "Guide" ++ tmplB ++ chars "Guide" ++ tmplC ++ tmplD ++
          chars "Hello" ++ tmplE) ++
          (chars "<nav id=\"sidebar\"><ul><li>Nav</li></ul></nav>" ++
            (tmplF ++ tplC2.footer ++ tmplG ++ tmplH)) := by
      rw [hout, hrw]
      simp [List.append_assoc]
    rw [hdec2]
    exact containsSub_middle _ _ _
